import Mathlib

/-!
Verification development for the Wheatley `FeaturesExtractor`
(`src/models/features_extractor.py`).

The feature extractor is shallowly embedded over exact rational matrices
(`List (List ℚ)`).  External collaborators (the MLP block, the
torch-geometric convolution operators, the graph normalisation layers and
the ELU activation) are parameters of the embedding, constrained only by
their shape contracts, exactly as the specification treats them.
All repository-side logic — graph augmentation (virtual pooling node,
the three clique-conflict strategies, machine hub nodes), the
message-passing loop with its in-place residual update, and the
readout/pooling dispatch — is translated directly from the source.
-/

namespace Wheatley

/-- A dense matrix of exact rationals: the model of a 2-D float tensor. -/
abbrev Mat := List (List ℚ)

/-- The graph batch produced by the observation-to-graph collaborator
(`AgentObservation.to_graph`): node features, parallel edge-index rows,
per-node graph id, per-graph start offsets, and the number of graphs. -/
structure GraphState where
  x : Mat
  edgeSrc : List ℕ
  edgeTgt : List ℕ
  batch : List ℕ
  ptr : List ℕ
  numGraphs : ℕ

/-- `row ∈ m` accessor mirroring `tensor[i]` (default `[]` out of range). -/
def rowOf (m : Mat) (i : ℕ) : List ℚ := m.getD i []

/-- The machine one-hot block of a node row: columns `6 .. 6+maxM`
(`features[:, 6 : 6 + self.max_n_machines]`). -/
def machineSlice (maxM : ℕ) (row : List ℚ) : List ℚ := (row.drop 6).take maxM

/-- `torch.max` over a 1-D tensor (0 on the empty tensor, which torch rejects). -/
def listMax : List ℚ → ℚ
  | [] => 0
  | a :: t => t.foldl max a

/-- Index of the first occurrence of the maximum — the index returned by
`torch.max(..., dim=1)` / `torch.argmax`. -/
def argmaxFirst : List ℚ → ℕ
  | [] => 0
  | a :: t => if listMax (a :: t) ≤ a then 0 else argmaxFirst t + 1

/-- `machineid` of one node row:
`mmax = torch.max(machine, dim=1); torch.where(mmax[0] == 0, -1, mmax[1])`. -/
def machineidOf (maxM : ℕ) (row : List ℚ) : ℤ :=
  if listMax (machineSlice maxM row) = 0 then -1
  else (argmaxFirst (machineSlice maxM row) : ℤ)

/-- `machineid` read at a node index of the feature matrix. -/
def machineid (maxM : ℕ) (x : Mat) (i : ℕ) : ℤ := machineidOf maxM (rowOf x i)

/-- The affectation flag, column 0 of a node row (`features[:, 0]`). -/
def affFlag (x : Mat) (i : ℕ) : ℚ := (rowOf x i).getD 0 0

/-- The `-1 ↦ -2` remap of `machineid` used on the unsqueeze(1) side:
`torch.where(machineid == -1, -2, machineid)`. -/
def machineidM2 (maxM : ℕ) (x : Mat) (i : ℕ) : ℤ :=
  if machineid maxM x i = -1 then -2 else machineid maxM x i

/-- The conflict condition of the dense all-graphs-at-once strategy at matrix
cell `(i, j)`: same machine (`m1 = m2`), same graph (`b1 = b2`), not both
affected, and off the diagonal.  `m1[i][j] = machineid[j]`,
`m2[i][j] = machineidM2[i]`, `aff1[i][j] = aff[j]`, `aff2[i][j] = aff[i]`,
`b1[i][j] = batch[j]`, `b2[i][j] = batch[i]`. -/
def highmemCond (maxM : ℕ) (x : Mat) (batch : List ℕ) (i j : ℕ) : Bool :=
  (machineid maxM x j = machineidM2 maxM x i) &&
  (batch.getD j 0 = batch.getD i 0) &&
  !((affFlag x j ≠ 0) && (affFlag x i ≠ 0)) &&
  !(i = j)

/-- Dense all-graphs-at-once clique-conflict strategy
(`highmem_conflict_clique` branch): edges `(i, j)` for every true cell of the
condition matrix, in row-major `nonzero` order, typed `machineid[i] + 3`. -/
def highmemConflicts (maxM : ℕ) (x : Mat) (batch : List ℕ) : List (ℕ × ℕ × ℤ) :=
  (List.range x.length).flatMap (fun i =>
    (List.range x.length).filterMap (fun j =>
      if highmemCond maxM x batch i j then some (i, j, machineid maxM x i + 3)
      else none))

/-- The per-graph dense conflict condition at local cell `(i, j)` of graph
`bi` starting at node offset `lo`: same machine, not both affected, off the
diagonal (no batch test — the slice is a single graph). -/
def mediumCond (maxM : ℕ) (x : Mat) (lo : ℕ) (i j : ℕ) : Bool :=
  (machineid maxM x (lo + j) = machineidM2 maxM x (lo + i)) &&
  !((affFlag x (lo + j) ≠ 0) && (affFlag x (lo + i) ≠ 0)) &&
  !(i = j)

/-- Per-graph dense clique-conflict strategy (`mediummem_conflict_clique`
branch, the default): for each graph the local dense condition, local indices
shifted by `graph_state.ptr[bi]`, typed `machineid[local i] + 3`. -/
def mediummemConflicts (maxM : ℕ) (x : Mat) (ptr : List ℕ) (nBatch : ℕ) :
    List (ℕ × ℕ × ℤ) :=
  (List.range nBatch).flatMap (fun bi =>
    let lo := ptr.getD bi 0
    let n := ptr.getD (bi + 1) 0 - lo
    (List.range n).flatMap (fun i =>
      (List.range n).filterMap (fun j =>
        if mediumCond maxM x lo i j then
          some (lo + i, lo + j, machineid maxM x (lo + i) + 3)
        else none)))

/-- `torch.all(machine == 0)`. -/
def allZero (l : List ℚ) : Bool := l.all (· = 0)

/-- Exhaustive nested pairwise clique-conflict strategy (the CPU fallback
`else` branch): per graph, for every ordered pair `n1 < n2` of nodes with
non-all-zero machine blocks, equal machine vectors and not both affected,
add both directions typed `argmax(machine1) + 3`. -/
def lowmemConflicts (maxM : ℕ) (x : Mat) (ptr : List ℕ) (nBatch : ℕ) :
    List (ℕ × ℕ × ℤ) :=
  (List.range nBatch).flatMap (fun bi =>
    let lo := ptr.getD bi 0
    let hi := ptr.getD (bi + 1) 0
    (List.range (hi - lo)).flatMap (fun d1 =>
      let n1 := lo + d1
      if allZero (machineSlice maxM (rowOf x n1)) then []
      else
        (List.range (hi - (n1 + 1))).flatMap (fun d2 =>
          let n2 := n1 + 1 + d2
          if allZero (machineSlice maxM (rowOf x n2)) then []
          else if (machineSlice maxM (rowOf x n1) =
                     machineSlice maxM (rowOf x n2) : Bool) &&
                  !((affFlag x n1 = 1) && (affFlag x n2 = 1)) then
            [(n1, n2, (argmaxFirst (machineSlice maxM (rowOf x n1)) : ℤ) + 3),
             (n2, n1, (argmaxFirst (machineSlice maxM (rowOf x n1)) : ℤ) + 3)]
          else [])))

/-- `idxaffected`: indices (ascending) of real nodes whose `machineid` is not
`-1` (`torch.where(machineid != -1, 1, 0).nonzero(as_tuple=True)[0]`). -/
def idxaffected (maxM : ℕ) (x : Mat) : List ℕ :=
  (List.range x.length).filter (fun i => machineid maxM x i ≠ -1)

/-- `targetmachinenode = bid * max_n_machines + machineid + node_offset`:
the machine hub node an affected task points at. -/
def targetmachinenode (maxM nodeOffset : ℕ) (x : Mat) (batch : List ℕ)
    (i : ℕ) : ℕ :=
  batch.getD i 0 * maxM + (machineid maxM x i).toNat + nodeOffset

/-- Node-conflict-mode edges, in the order the source concatenates them:
all task→hub edges typed `machineid + 3`, then all hub→task edges typed
`machineid + 3 + max_n_machines`. -/
def nodeConflictEdges (maxM nodeOffset : ℕ) (x : Mat) (batch : List ℕ) :
    List (ℕ × ℕ × ℤ) :=
  (idxaffected maxM x).map (fun i =>
    (i, targetmachinenode maxM nodeOffset x batch i, machineid maxM x i + 3)) ++
  (idxaffected maxM x).map (fun i =>
    (targetmachinenode maxM nodeOffset x batch i, i,
      machineid maxM x i + 3 + (maxM : ℤ)))

/-- The configuration fields of `FeaturesExtractor.__init__` that `forward`
branches on (`self.conflicts`, the two hardcoded clique-strategy flags,
`self.graph_pooling`, `self.reverse_adj`, `self.residual`, `self.normalize`,
`self.graph_has_relu`, `self.gconv_type`, sizes). -/
structure FEConfig where
  gconv_type : String
  graph_pooling : String
  conflicts : String
  highmem_conflict_clique : Bool
  mediummem_conflict_clique : Bool
  reverse_adj : Bool
  residual : Bool
  normalize : Bool
  graph_has_relu : Bool
  max_n_machines : ℕ
  n_layers : ℕ

/-- The external learned collaborators of the extractor: the node embedder
MLP, the per-layer graph convolutions (fed node features and the typed edge
list, the per-layer edge-attribute embedding being internal to the
collaborator), the per-layer auxiliary MLPs of the attention variant, the
activation, and the graph normalisation layers. -/
structure Collab where
  embedder : Mat → Mat
  conv : ℕ → Mat → List (ℕ × ℕ × ℤ) → Mat
  mlp : ℕ → Mat → Mat
  act : ℚ → ℚ
  norm0 : Mat → Mat
  norm1 : Mat → Mat
  norms : ℕ → Mat → Mat
  normsbis : ℕ → Mat → Mat

/-- The working state of graph augmentation: the (growing) feature matrix,
the typed edge list (source, target, edge-type code), and the running
virtual-node offset. -/
structure AugState where
  features : Mat
  edges : List (ℕ × ℕ × ℤ)
  node_offset : ℕ

/-- Initial augmentation state: the raw graph, every input edge typed `1`
(`edge_attr` starts as the embedding of `[1] * edge_index.shape[1]`),
`node_offset = graph_state.x.shape[0]`. -/
def initAug (gs : GraphState) : AugState :=
  { features := gs.x
    edges := (gs.edgeSrc.zip gs.edgeTgt).map (fun e => (e.1, e.2, (1 : ℤ)))
    node_offset := gs.x.length }

/-- `ei0`: for each graph `i`, the virtual pooling node index
`node_offset + i` repeated once per real node of the graph. -/
def poolEi0 (gs : GraphState) (nodeOffset : ℕ) : List ℕ :=
  (List.range gs.numGraphs).flatMap (fun i =>
    List.replicate (gs.ptr.getD (i + 1) 0 - gs.ptr.getD i 0) (nodeOffset + i))

/-- `ei1`: for each graph `i`, the list `range(ptr[i], ptr[i+1])` of its real
node indices. -/
def poolEi1 (gs : GraphState) : List ℕ :=
  (List.range gs.numGraphs).flatMap (fun i =>
    (List.range (gs.ptr.getD (i + 1) 0 - gs.ptr.getD i 0)).map
      (fun k => gs.ptr.getD i 0 + k))

/-- The `graph_pooling == "learn"` augmentation: append one zero row per
graph, append the pooling edges — orientation `(ei0, ei1)` when
`reverse_adj` is false and `(ei1, ei0)` otherwise — typed `2`, and advance
`node_offset` by the number of graphs. -/
def applyPooling (cfg : FEConfig) (gs : GraphState) (st : AugState) : AugState :=
  if cfg.graph_pooling = "learn" then
    let w := (st.features.headD []).length
    let graphnode : Mat := List.replicate gs.numGraphs (List.replicate w 0)
    let ei0 := poolEi0 gs st.node_offset
    let ei1 := poolEi1 gs
    let pen : List (ℕ × ℕ × ℤ) :=
      if !cfg.reverse_adj then (ei0.zip ei1).map (fun e => (e.1, e.2, (2 : ℤ)))
      else (ei1.zip ei0).map (fun e => (e.1, e.2, (2 : ℤ)))
    { features := st.features ++ graphnode
      edges := st.edges ++ pen
      node_offset := st.node_offset + gs.numGraphs }
  else st

/-- Zero the machine one-hot block of a row
(`features[:, 6 : 6 + self.max_n_machines] = 0`). -/
def zeroMachineCols (maxM : ℕ) (row : List ℚ) : List ℚ :=
  row.take 6 ++ List.replicate (min maxM (row.length - 6)) 0 ++ row.drop (6 + maxM)

/-- The conflict-handling stage of `forward`: clique mode dispatches on the
two memory-strategy flags and appends conflict edges; node mode appends
`n_batch * max_n_machines` zero hub rows, the task↔hub edges, advances
`node_offset`, and zeroes the machine block of every feature row; any other
mode (including `"att"`) changes nothing. -/
def applyConflicts (cfg : FEConfig) (gs : GraphState) (st : AugState) : AugState :=
  if cfg.conflicts = "clique" then
    let cs :=
      if cfg.highmem_conflict_clique then
        highmemConflicts cfg.max_n_machines gs.x gs.batch
      else if cfg.mediummem_conflict_clique then
        mediummemConflicts cfg.max_n_machines gs.x gs.ptr gs.numGraphs
      else
        lowmemConflicts cfg.max_n_machines gs.x gs.ptr gs.numGraphs
    { st with edges := st.edges ++ cs }
  else if cfg.conflicts = "node" then
    let w := (st.features.headD []).length
    let machine_nodes : Mat :=
      List.replicate (gs.numGraphs * cfg.max_n_machines) (List.replicate w 0)
    let cs := nodeConflictEdges cfg.max_n_machines st.node_offset gs.x gs.batch
    { features := (st.features ++ machine_nodes).map (zeroMachineCols cfg.max_n_machines)
      edges := st.edges ++ cs
      node_offset := st.node_offset + gs.numGraphs * cfg.max_n_machines }
  else st

/-- Swap source and target of a typed edge
(`torch.stack([edge_index[1], edge_index[0]])` acting on one edge). -/
def swapEdge (e : ℕ × ℕ × ℤ) : ℕ × ℕ × ℤ := (e.2.1, e.1, e.2.2)

/-- The global direction convention: when `reverse_adj` is false the whole
edge index is swapped (`edge_index = torch.stack([edge_index[1],
edge_index[0]])`) after all edges are in. -/
def applyReverse (cfg : FEConfig) (st : AugState) : AugState :=
  if !cfg.reverse_adj then { st with edges := st.edges.map swapEdge }
  else st

/-- The whole augmentation stage, in source order: pooling node, conflict
edges, global direction swap. -/
def augment (cfg : FEConfig) (gs : GraphState) : AugState :=
  applyReverse cfg (applyConflicts cfg gs (applyPooling cfg gs (initAug gs)))

/-- Elementwise vector addition (tensor `+` on equal shapes). -/
def vecAdd (a b : List ℚ) : List ℚ := a.zipWith (· + ·) b

/-- Elementwise matrix addition (tensor `+=` on equal shapes). -/
def matAdd (a b : Mat) : Mat := a.zipWith vecAdd b

/-- Elementwise activation map (`torch.nn.functional.elu(features)`). -/
def mapAct (act : ℚ → ℚ) (m : Mat) : Mat := m.map (fun r => r.map act)

/-- One iteration of the message-passing loop at layer `l`, acting on the
pair (current features, features_list).  Order of the source: convolution,
optional ELU, the attention variant's auxiliary MLP, optional norm, append
to `features_list`, then the in-place `features += features_list[-2]` —
which mutates the tensor just appended, so the recorded entry is the
post-residual one — and finally the optional second norm, which rebinds
`features` without touching the recorded entry. -/
def layerStep (cfg : FEConfig) (c : Collab) (edges : List (ℕ × ℕ × ℤ))
    (l : ℕ) (s : Mat × List Mat) : Mat × List Mat :=
  let f1 := c.conv l s.1 edges
  let f2 := if cfg.graph_has_relu || cfg.gconv_type = "gatv2" then
              mapAct c.act f1 else f1
  let f3 := if cfg.gconv_type = "gatv2" then c.mlp l f2 else f2
  let f4 := if cfg.normalize then c.norms l f3 else f3
  if cfg.residual then
    let f5 := matAdd f4 (s.2.getLastD [])
    let f6 := if cfg.normalize then c.normsbis l f5 else f5
    (f6, s.2 ++ [f5])
  else (f4, s.2 ++ [f4])

/-- `k` remaining iterations of the message-passing loop starting at layer
index `l`. -/
def runLayers (cfg : FEConfig) (c : Collab) (edges : List (ℕ × ℕ × ℤ)) :
    ℕ → ℕ → Mat × List Mat → Mat × List Mat
  | 0, _, s => s
  | k + 1, l, s => runLayers cfg c edges k (l + 1) (layerStep cfg c edges l s)

/-- The prologue of the embedding computation: optional input norm, record
the (possibly normalised) raw features, apply the embedder MLP, optional
norm, record again. -/
def initMP (cfg : FEConfig) (c : Collab) (features : Mat) : Mat × List Mat :=
  let f0 := if cfg.normalize then c.norm0 features else features
  let f1 := c.embedder f0
  let f2 := if cfg.normalize then c.norm1 f1 else f1
  (f2, [f0, f2])

/-- The full `features_list` after all message-passing layers. -/
def featuresList (cfg : FEConfig) (c : Collab) (gs : GraphState) : List Mat :=
  (runLayers cfg c (augment cfg gs).edges cfg.n_layers 0
    (initMP cfg c (augment cfg gs).features)).2

/-- `torch.cat(features_list, axis=1)`: rows concatenated across the
matrices, the row count read off the first matrix. -/
def hcat (ms : List Mat) : Mat :=
  (List.range (ms.headD []).length).map
    (fun i => (ms.map (fun m => rowOf m i)).flatten)

/-- The concatenation of every layer's embedding — the tensor named
`features` after the loop of `forward`. -/
def finalFeatures (cfg : FEConfig) (c : Collab) (gs : GraphState) : Mat :=
  hcat (featuresList cfg c gs)

/-- `torch.max(node_features, dim=1)`: columnwise maximum over the rows. -/
def colMax : Mat → List ℚ
  | [] => []
  | r :: t => t.foldl (fun acc s => acc.zipWith max s) r

/-- `torch.matmul(ones(n)/n, node_features)`: columnwise mean over the rows
(exact rational arithmetic). -/
def colMean (n : ℕ) : Mat → List ℚ
  | [] => []
  | r :: t => (t.foldl vecAdd r).map (· / (n : ℚ))

/-- `features[:realN].reshape(batch_size, n_nodes, -1)`: the real-node rows
of the final embedding, split into one block of `n_nodes` rows per graph. -/
def nodeChunks (final : Mat) (realN bs n : ℕ) : List Mat :=
  (List.range bs).map (fun b => ((final.take realN).drop (b * n)).take n)

/-- The readout dispatch of `forward`: `"max"` — columnwise max per graph;
`"avg"` — uniform-weight matmul per graph; `"learn"` — the virtual pooling
rows `features[realN : realN + n_batch]`; anything else — the
`Graph pooling ... not recognized` exception. -/
def graphEmbeddingStage (pooling : String) (final : Mat)
    (realN nBatch bs n : ℕ) : Except String Mat :=
  if pooling = "max" then Except.ok ((nodeChunks final realN bs n).map colMax)
  else if pooling = "avg" then
    Except.ok ((nodeChunks final realN bs n).map (colMean n))
  else if pooling = "learn" then Except.ok ((final.drop realN).take nBatch)
  else Except.error ("Graph pooling " ++ pooling ++
    " not recognized. Only accepted pooling are max and avg")

/-- The full forward pass: augmentation, message passing, concatenation,
readout, then the graph embedding broadcast onto every node row
(`torch.cat((node_features, repeated), dim=2)`). -/
def forward (cfg : FEConfig) (c : Collab) (gs : GraphState)
    (batch_size n_nodes : ℕ) : Except String (List Mat) :=
  let final := finalFeatures cfg c gs
  let chunks := nodeChunks final gs.x.length batch_size n_nodes
  match graphEmbeddingStage cfg.graph_pooling final gs.x.length gs.numGraphs
      batch_size n_nodes with
  | Except.error e => Except.error e
  | Except.ok ge =>
      Except.ok ((List.range batch_size).map (fun b =>
        (chunks.getD b []).map (fun row => row ++ rowOf ge b)))

/-- The convolution classes bound by the import line of the source file:
`from torch_geometric.nn.conv import GINEConv, GATv2Conv, EGConv, PDNConv`. -/
def importedConvClasses : List String := ["GINEConv", "GATv2Conv", "EGConv", "PDNConv"]

/-- The class name each recognized `gconv_type` branch of `__init__`
references when building a layer, `none` for the final `else` branch
(`print("Unknown gconv type", ...); sys.exit()`). -/
def convClassRef (gconv_type : String) : Option String :=
  if gconv_type = "gin" then some "GINConv"
  else if gconv_type = "gatv2" then some "GATv2Conv"
  else if gconv_type = "eg" then some "EGConv"
  else if gconv_type = "pdn" then some "PDNConv"
  else none

/-- How constructing one layer can abort: a Python `NameError` on an unbound
class name, or the explicit `sys.exit()` of the unknown-type branch. -/
inductive ConstructError where
  | nameError : String → ConstructError
  | sysExit : ConstructError
deriving DecidableEq

/-- Building one feature-extractor layer: resolve the branch, then evaluate
the referenced class name against the names the import actually bound. -/
def buildLayer (gconv_type : String) : Except ConstructError Unit :=
  match convClassRef gconv_type with
  | some cls =>
      if importedConvClasses.contains cls then Except.ok ()
      else Except.error (ConstructError.nameError cls)
  | none => Except.error ConstructError.sysExit

/-- The `for layer in range(n_layers_features_extractor)` construction loop:
the first failing layer aborts the constructor. -/
def buildFeatureExtractors (gconv_type : String) : ℕ → Except ConstructError Unit
  | 0 => Except.ok ()
  | k + 1 =>
      match buildLayer gconv_type with
      | Except.ok _ => buildFeatureExtractors gconv_type k
      | Except.error e => Except.error e

/-- C4 (code-bug evidence): the recognized `"gin"` variant aborts
construction with a `NameError` on `GINConv` — the source imports `GINEConv`
but the `"gin"` branch instantiates `GINConv`, which no import binds — so
"every recognized variant completes without error" fails on the code, while
the other recognized variants do construct and an unrecognized type exits
fatally rather than proceeding. -/
theorem c4_gin_construction_name_error :
    buildFeatureExtractors "gin" 1 =
      Except.error (ConstructError.nameError "GINConv") ∧
    buildFeatureExtractors "gatv2" 1 = Except.ok () ∧
    buildFeatureExtractors "eg" 1 = Except.ok () ∧
    buildFeatureExtractors "pdn" 1 = Except.ok () ∧
    buildFeatureExtractors "gcn2" 1 = Except.error ConstructError.sysExit := by
  refine ⟨rfl, rfl, rfl, rfl, rfl⟩

/-- C9: the readout dispatch of `forward` raises its fatal configuration
exception exactly when the pooling-mode string is none of the accepted
modes `"max"`, `"avg"`, `"learn"`; an accepted mode never raises it and an
unaccepted one never silently falls back to a result. -/
theorem c9_pooling_mode_error_iff (pooling : String) (final : Mat)
    (realN nBatch bs n : ℕ) :
    (∃ e, graphEmbeddingStage pooling final realN nBatch bs n = Except.error e)
      ↔ ¬(pooling = "max" ∨ pooling = "avg" ∨ pooling = "learn") := by
  unfold graphEmbeddingStage
  split_ifs <;> simp_all

/-- The conflict-edge block `applyConflicts` appends for a given running
node offset (empty for any mode other than clique/node). -/
def conflictsOf (cfg : FEConfig) (gs : GraphState) (nodeOffset : ℕ) :
    List (ℕ × ℕ × ℤ) :=
  if cfg.conflicts = "clique" then
    if cfg.highmem_conflict_clique then
      highmemConflicts cfg.max_n_machines gs.x gs.batch
    else if cfg.mediummem_conflict_clique then
      mediummemConflicts cfg.max_n_machines gs.x gs.ptr gs.numGraphs
    else lowmemConflicts cfg.max_n_machines gs.x gs.ptr gs.numGraphs
  else if cfg.conflicts = "node" then
    nodeConflictEdges cfg.max_n_machines nodeOffset gs.x gs.batch
  else []

lemma applyConflicts_edges (cfg : FEConfig) (gs : GraphState) (st : AugState) :
    (applyConflicts cfg gs st).edges =
      st.edges ++ conflictsOf cfg gs st.node_offset := by
  unfold applyConflicts conflictsOf
  split_ifs
  all_goals simp

lemma ite_some_eq_some {α : Type} {c : Prop} [Decidable c] {a b : α} :
    ((if c then some a else none) = some b) ↔ c ∧ a = b := by
  split <;> simp_all

lemma mem_ite_nil {α : Type} {c : Prop} [Decidable c] {t : α} {L : List α} :
    (t ∈ if c then ([] : List α) else L) ↔ ¬c ∧ t ∈ L := by
  split <;> simp_all

lemma mem_ite_nil2 {α : Type} {c : Prop} [Decidable c] {t : α} {L : List α} :
    (t ∈ if c then L else ([] : List α)) ↔ c ∧ t ∈ L := by
  split <;> simp_all

lemma machineid_cases (maxM : ℕ) (x : Mat) (i : ℕ) :
    machineid maxM x i = -1 ∨ ∃ k : ℕ, machineid maxM x i = (k : ℤ) := by
  unfold machineid machineidOf
  split
  · exact Or.inl rfl
  · exact Or.inr ⟨_, rfl⟩

lemma machineid_ge_neg1 (maxM : ℕ) (x : Mat) (i : ℕ) :
    (-1 : ℤ) ≤ machineid maxM x i := by
  rcases machineid_cases maxM x i with h | ⟨k, h⟩ <;> rw [h] <;> omega

lemma highmem_mem (maxM : ℕ) (x : Mat) (batch : List ℕ) {t : ℕ × ℕ × ℤ} :
    t ∈ highmemConflicts maxM x batch ↔
      ∃ i, i < x.length ∧ ∃ j, j < x.length ∧
        highmemCond maxM x batch i j = true ∧
        t = (i, j, machineid maxM x i + 3) := by
  unfold highmemConflicts
  simp only [List.mem_flatMap, List.mem_filterMap, List.mem_range,
    ite_some_eq_some]
  constructor
  · rintro ⟨i, hi, j, hj, hc, ht⟩
    exact ⟨i, hi, j, hj, hc, ht.symm⟩
  · rintro ⟨i, hi, j, hj, hc, ht⟩
    exact ⟨i, hi, j, hj, hc, ht.symm⟩

lemma highmemCond_spec {maxM : ℕ} {x : Mat} {batch : List ℕ} {i j : ℕ}
    (h : highmemCond maxM x batch i j = true) :
    0 ≤ machineid maxM x i ∧ machineid maxM x j = machineid maxM x i ∧
      batch.getD j 0 = batch.getD i 0 ∧
      ¬(affFlag x j ≠ 0 ∧ affFlag x i ≠ 0) ∧ i ≠ j := by
  unfold highmemCond machineidM2 at h
  simp only [Bool.and_eq_true, decide_eq_true_eq, Bool.not_eq_eq_eq_not,
    Bool.not_true, Bool.and_eq_false_iff, decide_eq_false_iff_not,
    Bool.not_eq_true'] at h
  obtain ⟨⟨⟨hm, hb⟩, ha⟩, hij⟩ := h
  by_cases hneg : machineid maxM x i = -1
  · rw [if_pos hneg] at hm
    have := machineid_ge_neg1 maxM x j
    omega
  · rw [if_neg hneg] at hm
    have := machineid_ge_neg1 maxM x i
    refine ⟨by omega, hm, hb, ?_, hij⟩
    rcases ha with ha | ha
    · exact fun hc => ha hc.1
    · exact fun hc => ha hc.2

lemma mediumCond_spec {maxM : ℕ} {x : Mat} {lo i j : ℕ}
    (h : mediumCond maxM x lo i j = true) :
    0 ≤ machineid maxM x (lo + i) ∧
      machineid maxM x (lo + j) = machineid maxM x (lo + i) ∧
      ¬(affFlag x (lo + j) ≠ 0 ∧ affFlag x (lo + i) ≠ 0) ∧ i ≠ j := by
  unfold mediumCond machineidM2 at h
  simp only [Bool.and_eq_true, decide_eq_true_eq, Bool.not_eq_eq_eq_not,
    Bool.not_true, Bool.and_eq_false_iff, decide_eq_false_iff_not,
    Bool.not_eq_true'] at h
  obtain ⟨⟨hm, ha⟩, hij⟩ := h
  by_cases hneg : machineid maxM x (lo + i) = -1
  · rw [if_pos hneg] at hm
    have := machineid_ge_neg1 maxM x (lo + j)
    omega
  · rw [if_neg hneg] at hm
    have := machineid_ge_neg1 maxM x (lo + i)
    refine ⟨by omega, hm, ?_, hij⟩
    rcases ha with ha | ha
    · exact fun hc => ha hc.1
    · exact fun hc => ha hc.2

lemma medium_mem (maxM : ℕ) (x : Mat) (ptr : List ℕ) (nB : ℕ) {t : ℕ × ℕ × ℤ} :
    t ∈ mediummemConflicts maxM x ptr nB ↔
      ∃ bi, bi < nB ∧ ∃ i, i < ptr.getD (bi + 1) 0 - ptr.getD bi 0 ∧
        ∃ j, j < ptr.getD (bi + 1) 0 - ptr.getD bi 0 ∧
          mediumCond maxM x (ptr.getD bi 0) i j = true ∧
          t = (ptr.getD bi 0 + i, ptr.getD bi 0 + j,
               machineid maxM x (ptr.getD bi 0 + i) + 3) := by
  unfold mediummemConflicts
  simp only [List.mem_flatMap, List.mem_filterMap, List.mem_range,
    ite_some_eq_some]
  constructor
  · rintro ⟨bi, hbi, i, hi, j, hj, hc, ht⟩
    exact ⟨bi, hbi, i, hi, j, hj, hc, ht.symm⟩
  · rintro ⟨bi, hbi, i, hi, j, hj, hc, ht⟩
    exact ⟨bi, hbi, i, hi, j, hj, hc, ht.symm⟩

lemma lowmem_mem (maxM : ℕ) (x : Mat) (ptr : List ℕ) (nB : ℕ) {t : ℕ × ℕ × ℤ} :
    t ∈ lowmemConflicts maxM x ptr nB ↔
      ∃ bi, bi < nB ∧
        ∃ d1, d1 < ptr.getD (bi + 1) 0 - ptr.getD bi 0 ∧
          ¬allZero (machineSlice maxM (rowOf x (ptr.getD bi 0 + d1))) = true ∧
          ∃ d2, d2 < ptr.getD (bi + 1) 0 - (ptr.getD bi 0 + d1 + 1) ∧
            ¬allZero (machineSlice maxM
                (rowOf x (ptr.getD bi 0 + d1 + 1 + d2))) = true ∧
            ((machineSlice maxM (rowOf x (ptr.getD bi 0 + d1)) =
                machineSlice maxM (rowOf x (ptr.getD bi 0 + d1 + 1 + d2)) : Bool) &&
             !((affFlag x (ptr.getD bi 0 + d1) = 1) &&
               (affFlag x (ptr.getD bi 0 + d1 + 1 + d2) = 1))) = true ∧
            (t = (ptr.getD bi 0 + d1, ptr.getD bi 0 + d1 + 1 + d2,
                  (argmaxFirst (machineSlice maxM (rowOf x (ptr.getD bi 0 + d1))) : ℤ) + 3) ∨
             t = (ptr.getD bi 0 + d1 + 1 + d2, ptr.getD bi 0 + d1,
                  (argmaxFirst (machineSlice maxM (rowOf x (ptr.getD bi 0 + d1))) : ℤ) + 3)) := by
  unfold lowmemConflicts
  simp only [List.mem_flatMap, List.mem_range, mem_ite_nil]
  constructor
  · rintro ⟨bi, hbi, d1, hd1, hz1, d2, hd2, hz2, hmem⟩
    rw [mem_ite_nil2] at hmem
    obtain ⟨hcond, hmem⟩ := hmem
    simp only [List.mem_cons, List.not_mem_nil, or_false] at hmem
    exact ⟨bi, hbi, d1, hd1, hz1, d2, hd2, hz2, hcond, hmem⟩
  · rintro ⟨bi, hbi, d1, hd1, hz1, d2, hd2, hz2, hcond, hmem⟩
    refine ⟨bi, hbi, d1, hd1, hz1, d2, hd2, hz2, ?_⟩
    rw [mem_ite_nil2]
    exact ⟨hcond, by simpa using hmem⟩

lemma highmem_type_ge3 (maxM : ℕ) (x : Mat) (batch : List ℕ) :
    ∀ e ∈ highmemConflicts maxM x batch, 3 ≤ e.2.2 := by
  intro e he
  rw [highmem_mem] at he
  obtain ⟨i, _, j, _, hc, ht⟩ := he
  have h0 := (highmemCond_spec hc).1
  subst ht
  dsimp only
  omega

lemma medium_type_ge3 (maxM : ℕ) (x : Mat) (ptr : List ℕ) (nB : ℕ) :
    ∀ e ∈ mediummemConflicts maxM x ptr nB, 3 ≤ e.2.2 := by
  intro e he
  rw [medium_mem] at he
  obtain ⟨bi, _, i, _, j, _, hc, ht⟩ := he
  have h0 := (mediumCond_spec hc).1
  subst ht
  dsimp only
  omega

lemma lowmem_type_ge3 (maxM : ℕ) (x : Mat) (ptr : List ℕ) (nB : ℕ) :
    ∀ e ∈ lowmemConflicts maxM x ptr nB, 3 ≤ e.2.2 := by
  intro e he
  rw [lowmem_mem] at he
  obtain ⟨bi, _, d1, _, _, d2, _, _, _, hmem⟩ := he
  rcases hmem with ht | ht <;> subst ht <;> dsimp only <;> omega

lemma node_type_ge3 (maxM nodeOffset : ℕ) (x : Mat) (batch : List ℕ) :
    ∀ e ∈ nodeConflictEdges maxM nodeOffset x batch, 3 ≤ e.2.2 := by
  intro e he
  unfold nodeConflictEdges at he
  rw [List.mem_append] at he
  have key : ∀ i ∈ idxaffected maxM x, 0 ≤ machineid maxM x i := by
    intro i hi
    unfold idxaffected at hi
    rw [List.mem_filter] at hi
    rcases machineid_cases maxM x i with h | ⟨k, h⟩
    · simp [h] at hi
    · rw [h]; omega
  rcases he with he | he <;> rw [List.mem_map] at he <;>
    obtain ⟨i, hi, ht⟩ := he <;> subst ht <;> dsimp only <;>
    have := key i hi <;> omega

lemma conflictsOf_type_ge3 (cfg : FEConfig) (gs : GraphState) (off : ℕ) :
    ∀ e ∈ conflictsOf cfg gs off, 3 ≤ e.2.2 := by
  intro e he
  unfold conflictsOf at he
  split_ifs at he
  · exact highmem_type_ge3 _ _ _ e he
  · exact medium_type_ge3 _ _ _ _ e he
  · exact lowmem_type_ge3 _ _ _ _ e he
  · exact node_type_ge3 _ _ _ _ e he
  · simp at he

lemma initAug_type_eq1 (gs : GraphState) :
    ∀ e ∈ (initAug gs).edges, e.2.2 = 1 := by
  intro e he
  unfold initAug at he
  rw [List.mem_map] at he
  obtain ⟨p, _, ht⟩ := he
  subst ht
  rfl

lemma zip_swap_map_tag (a b : List ℕ) :
    ((a.zip b).map (fun p => ((p.2, p.1, (2 : ℤ)) : ℕ × ℕ × ℤ))) =
      (b.zip a).map (fun p => (p.1, p.2, (2 : ℤ))) := by
  induction a generalizing b with
  | nil => cases b <;> rfl
  | cons x xs ih => cases b with
    | nil => rfl
    | cons y ys => simpa using ih ys

lemma pooling_swap_core (base cs : List (ℕ × ℕ × ℤ)) (a b : List ℕ)
    (hbase : ∀ e ∈ base, e.2.2 = 1) (hcs : ∀ e ∈ cs, 3 ≤ e.2.2) :
    (((base ++ (a.zip b).map (fun p => (p.1, p.2, (2 : ℤ))) ++ cs).map
        swapEdge).filter (fun e => e.2.2 = 2) =
      (base ++ (b.zip a).map (fun p => (p.1, p.2, (2 : ℤ))) ++ cs).filter
        (fun e => e.2.2 = 2)) ∧
    (((base ++ (a.zip b).map (fun p => (p.1, p.2, (2 : ℤ))) ++ cs).map
        swapEdge).filter (fun e => e.2.2 = 2) =
      (b.zip a).map (fun p => (p.1, p.2, (2 : ℤ)))) ∧
    (((base ++ (a.zip b).map (fun p => (p.1, p.2, (2 : ℤ))) ++ cs).map
        swapEdge).filter (fun e => !(e.2.2 = 2 : Bool)) =
      ((base ++ (b.zip a).map (fun p => (p.1, p.2, (2 : ℤ))) ++ cs).filter
        (fun e => !(e.2.2 = 2 : Bool))).map swapEdge) := by
  classical
  have hcomp1 : ((fun e : ℕ × ℕ × ℤ => (e.2.2 = 2 : Bool)) ∘ swapEdge) =
      (fun e : ℕ × ℕ × ℤ => (e.2.2 = 2 : Bool)) := rfl
  have hcomp2 : ((fun e : ℕ × ℕ × ℤ => !(e.2.2 = 2 : Bool)) ∘ swapEdge) =
      (fun e : ℕ × ℕ × ℤ => !(e.2.2 = 2 : Bool)) := rfl
  have hb1 : base.filter (fun e => (e.2.2 = 2 : Bool)) = [] :=
    List.filter_eq_nil_iff.mpr (fun e he => by
      have := hbase e he; simp only [decide_eq_true_eq]; omega)
  have hc1 : cs.filter (fun e => (e.2.2 = 2 : Bool)) = [] :=
    List.filter_eq_nil_iff.mpr (fun e he => by
      have := hcs e he; simp only [decide_eq_true_eq]; omega)
  have hb2 : base.filter (fun e => !(e.2.2 = 2 : Bool)) = base :=
    List.filter_eq_self.mpr (fun e he => by
      have := hbase e he; simp only [Bool.not_eq_eq_eq_not, Bool.not_true,
        decide_eq_false_iff_not]; omega)
  have hc2 : cs.filter (fun e => !(e.2.2 = 2 : Bool)) = cs :=
    List.filter_eq_self.mpr (fun e he => by
      have := hcs e he; simp only [Bool.not_eq_eq_eq_not, Bool.not_true,
        decide_eq_false_iff_not]; omega)
  have hp1 : ∀ (u v : List ℕ),
      ((u.zip v).map (fun p => ((p.1, p.2, (2 : ℤ)) : ℕ × ℕ × ℤ))).filter
        (fun e => (e.2.2 = 2 : Bool)) =
      (u.zip v).map (fun p => (p.1, p.2, (2 : ℤ))) :=
    fun u v => List.filter_eq_self.mpr (fun e he => by
      rw [List.mem_map] at he
      obtain ⟨p, _, ht⟩ := he
      subst ht
      rfl)
  have hp2 : ∀ (u v : List ℕ),
      ((u.zip v).map (fun p => ((p.1, p.2, (2 : ℤ)) : ℕ × ℕ × ℤ))).filter
        (fun e => !(e.2.2 = 2 : Bool)) = [] :=
    fun u v => List.filter_eq_nil_iff.mpr (fun e he => by
      rw [List.mem_map] at he
      obtain ⟨p, _, ht⟩ := he
      subst ht
      simp)
  have hmapmap : (((a.zip b).map
      (fun p => ((p.1, p.2, (2 : ℤ)) : ℕ × ℕ × ℤ))).map swapEdge) =
      (b.zip a).map (fun p => (p.1, p.2, (2 : ℤ))) := by
    rw [List.map_map]
    exact zip_swap_map_tag a b
  refine ⟨?_, ?_, ?_⟩
  · rw [List.filter_map, hcomp1, List.filter_append, List.filter_append,
      List.filter_append, List.filter_append, hb1, hc1, hp1, hp1]
    simp only [List.nil_append, List.append_nil]
    exact hmapmap
  · rw [List.filter_map, hcomp1, List.filter_append, List.filter_append,
      hb1, hc1, hp1]
    simp only [List.nil_append, List.append_nil]
    exact hmapmap
  · rw [List.filter_map, hcomp2, List.filter_append, List.filter_append,
      List.filter_append, List.filter_append, hb2, hc2, hp2, hp2]

lemma applyReverse_edges_notrev (cfg : FEConfig) (st : AugState)
    (hrev : cfg.reverse_adj = false) :
    (applyReverse cfg st).edges = st.edges.map swapEdge := by
  unfold applyReverse
  rw [hrev]
  simp

lemma applyReverse_edges_rev (cfg : FEConfig) (st : AugState)
    (hrev : cfg.reverse_adj = true) :
    (applyReverse cfg st).edges = st.edges := by
  unfold applyReverse
  rw [hrev]
  simp

lemma applyPooling_edges_learn_notrev (cfg : FEConfig) (gs : GraphState)
    (st : AugState) (hpool : cfg.graph_pooling = "learn")
    (hrev : cfg.reverse_adj = false) :
    (applyPooling cfg gs st).edges =
      st.edges ++ ((poolEi0 gs st.node_offset).zip (poolEi1 gs)).map
        (fun p => (p.1, p.2, (2 : ℤ))) := by
  unfold applyPooling
  rw [if_pos hpool, hrev]
  simp

lemma applyPooling_edges_learn_rev (cfg : FEConfig) (gs : GraphState)
    (st : AugState) (hpool : cfg.graph_pooling = "learn")
    (hrev : cfg.reverse_adj = true) :
    (applyPooling cfg gs st).edges =
      st.edges ++ ((poolEi1 gs).zip (poolEi0 gs st.node_offset)).map
        (fun p => (p.1, p.2, (2 : ℤ))) := by
  unfold applyPooling
  rw [if_pos hpool, hrev]
  simp

lemma applyPooling_offset_learn (cfg : FEConfig) (gs : GraphState)
    (st : AugState) (hpool : cfg.graph_pooling = "learn") :
    (applyPooling cfg gs st).node_offset = st.node_offset + gs.numGraphs := by
  unfold applyPooling
  rw [if_pos hpool]

/-- C10: with learned pooling, the pooling-tagged edges of the final edge
index are identical for both values of the reverse-adjacency switch — in
both runs each pooling edge is directed real-node → virtual-pool-node,
because the `reverse_adj = false` run inserts them pre-swapped and the
later global swap cancels that — while every non-pooling edge of the
`reverse_adj = false` run is the direction-reversal of the corresponding
edge of the `reverse_adj = true` run. -/
theorem c10_pooling_edges_reverse_invariant (cfg : FEConfig) (gs : GraphState)
    (hpool : cfg.graph_pooling = "learn") :
    ((augment { cfg with reverse_adj := false } gs).edges.filter
        (fun e => e.2.2 = 2) =
      (augment { cfg with reverse_adj := true } gs).edges.filter
        (fun e => e.2.2 = 2)) ∧
    ((augment { cfg with reverse_adj := false } gs).edges.filter
        (fun e => e.2.2 = 2) =
      ((poolEi1 gs).zip (poolEi0 gs gs.x.length)).map
        (fun p => (p.1, p.2, (2 : ℤ)))) ∧
    ((augment { cfg with reverse_adj := false } gs).edges.filter
        (fun e => !(e.2.2 = 2 : Bool)) =
      ((augment { cfg with reverse_adj := true } gs).edges.filter
        (fun e => !(e.2.2 = 2 : Bool))).map swapEdge) := by
  have hF : (augment { cfg with reverse_adj := false } gs).edges =
      ((initAug gs).edges ++
        ((poolEi0 gs gs.x.length).zip (poolEi1 gs)).map
          (fun p => (p.1, p.2, (2 : ℤ))) ++
        conflictsOf cfg gs (gs.x.length + gs.numGraphs)).map swapEdge := by
    unfold augment
    rw [applyReverse_edges_notrev { cfg with reverse_adj := false } _ rfl,
      applyConflicts_edges,
      applyPooling_edges_learn_notrev { cfg with reverse_adj := false } gs
        (initAug gs) hpool rfl,
      applyPooling_offset_learn { cfg with reverse_adj := false } gs
        (initAug gs) hpool]
    rfl
  have hT : (augment { cfg with reverse_adj := true } gs).edges =
      (initAug gs).edges ++
        ((poolEi1 gs).zip (poolEi0 gs gs.x.length)).map
          (fun p => (p.1, p.2, (2 : ℤ))) ++
        conflictsOf cfg gs (gs.x.length + gs.numGraphs) := by
    unfold augment
    rw [applyReverse_edges_rev { cfg with reverse_adj := true } _ rfl,
      applyConflicts_edges,
      applyPooling_edges_learn_rev { cfg with reverse_adj := true } gs
        (initAug gs) hpool rfl,
      applyPooling_offset_learn { cfg with reverse_adj := true } gs
        (initAug gs) hpool]
    rfl
  rw [hF, hT]
  exact pooling_swap_core (initAug gs).edges
    (conflictsOf cfg gs (gs.x.length + gs.numGraphs))
    (poolEi0 gs gs.x.length) (poolEi1 gs)
    (initAug_type_eq1 gs) (conflictsOf_type_ge3 cfg gs _)

/-- A concrete learned-pooling configuration used to instantiate C10. -/
def cfgW10 : FEConfig :=
  { gconv_type := "gin", graph_pooling := "learn", conflicts := "clique"
    highmem_conflict_clique := false, mediummem_conflict_clique := true
    reverse_adj := false, residual := true, normalize := false
    graph_has_relu := false, max_n_machines := 2, n_layers := 1 }

/-- A concrete two-node single-graph batch (both tasks on machine 0) used to
instantiate C10. -/
def gsW10 : GraphState :=
  { x := [[0, 0, 0, 0, 0, 0, 1, 0], [0, 0, 0, 0, 0, 0, 1, 0]]
    edgeSrc := [0], edgeTgt := [1], batch := [0, 0], ptr := [0, 2]
    numGraphs := 1 }

theorem c10_pooling_edges_reverse_invariant_witness :
    cfgW10.graph_pooling = "learn" ∧
    (augment { cfgW10 with reverse_adj := false } gsW10).edges.filter
        (fun e => e.2.2 = 2) =
      (augment { cfgW10 with reverse_adj := true } gsW10).edges.filter
        (fun e => e.2.2 = 2) :=
  ⟨rfl, (c10_pooling_edges_reverse_invariant cfgW10 gsW10 rfl).1⟩

/-- The per-layer computation up to (but not including) the residual add,
as `forward` applies it with normalisation disabled: convolution, optional
ELU, optional auxiliary MLP of the attention variant. -/
def postConv (cfg : FEConfig) (c : Collab) (edges : List (ℕ × ℕ × ℤ))
    (l : ℕ) (m : Mat) : Mat :=
  let f1 := c.conv l m edges
  let f2 := if cfg.graph_has_relu || cfg.gconv_type = "gatv2" then
              mapAct c.act f1 else f1
  if cfg.gconv_type = "gatv2" then c.mlp l f2 else f2

/-- Closed form of the entries the residual-enabled,
normalisation-disabled message-passing loop records: each recorded entry is
the post-convolution output plus the previous entry. -/
def resEntries (cfg : FEConfig) (c : Collab) (edges : List (ℕ × ℕ × ℤ)) :
    ℕ → ℕ → Mat → List Mat
  | 0, _, _ => []
  | k + 1, l, m =>
      matAdd (postConv cfg c edges l m) m ::
        resEntries cfg c edges k (l + 1) (matAdd (postConv cfg c edges l m) m)

lemma layerStep_resid (cfg : FEConfig) (c : Collab)
    (edges : List (ℕ × ℕ × ℤ)) (l : ℕ) (m : Mat) (fl : List Mat)
    (hres : cfg.residual = true) (hnorm : cfg.normalize = false)
    (hm : m = fl.getLastD []) :
    layerStep cfg c edges l (m, fl) =
      (matAdd (postConv cfg c edges l m) m,
        fl ++ [matAdd (postConv cfg c edges l m) m]) := by
  unfold layerStep postConv
  rw [hres, hnorm, hm]
  simp

lemma runLayers_resid (cfg : FEConfig) (c : Collab)
    (edges : List (ℕ × ℕ × ℤ)) (hres : cfg.residual = true)
    (hnorm : cfg.normalize = false) :
    ∀ (k l : ℕ) (m : Mat) (fl : List Mat), m = fl.getLastD [] →
      runLayers cfg c edges k l (m, fl) =
        ((fl ++ resEntries cfg c edges k l m).getLastD [],
          fl ++ resEntries cfg c edges k l m) := by
  intro k
  induction k with
  | zero =>
      intro l m fl hm
      simp [runLayers, resEntries, hm]
  | succ k ih =>
      intro l m fl hm
      have hstep : runLayers cfg c edges (k + 1) l (m, fl) =
          runLayers cfg c edges k (l + 1) (layerStep cfg c edges l (m, fl)) :=
        rfl
      rw [hstep, layerStep_resid cfg c edges l m fl hres hnorm hm,
        ih (l + 1) (matAdd (postConv cfg c edges l m) m)
          (fl ++ [matAdd (postConv cfg c edges l m) m])
          (List.getLastD_concat _ _ _).symm]
      simp [resEntries, List.append_assoc]

lemma initMP_nonorm (cfg : FEConfig) (c : Collab) (F : Mat)
    (hnorm : cfg.normalize = false) :
    initMP cfg c F = (c.embedder F, [F, c.embedder F]) := by
  unfold initMP
  rw [hnorm]
  simp

lemma featuresList_resid (cfg : FEConfig) (c : Collab) (gs : GraphState)
    (hres : cfg.residual = true) (hnorm : cfg.normalize = false) :
    featuresList cfg c gs =
      (augment cfg gs).features ::
        c.embedder (augment cfg gs).features ::
          resEntries cfg c (augment cfg gs).edges cfg.n_layers 0
            (c.embedder (augment cfg gs).features) := by
  unfold featuresList
  rw [initMP_nonorm cfg c _ hnorm,
    runLayers_resid cfg c _ hres hnorm cfg.n_layers 0 _ _ (by simp)]
  rfl

lemma resEntries_getD_cons (cfg : FEConfig) (c : Collab)
    (edges : List (ℕ × ℕ × ℤ)) :
    ∀ (k l0 : ℕ) (m : Mat) (i : ℕ), i < k →
      (resEntries cfg c edges k l0 m).getD i [] =
        matAdd (postConv cfg c edges (l0 + i)
            ((m :: resEntries cfg c edges k l0 m).getD i []))
          ((m :: resEntries cfg c edges k l0 m).getD i []) := by
  intro k
  induction k with
  | zero => intro l0 m i hi; omega
  | succ k ih =>
      intro l0 m i hi
      cases i with
      | zero => simp [resEntries]
      | succ j =>
          have hj : j < k := by omega
          have hrec := ih (l0 + 1) (matAdd (postConv cfg c edges l0 m) m) j hj
          have harith : l0 + 1 + j = l0 + (j + 1) := by omega
          rw [harith] at hrec
          show (resEntries cfg c edges (k + 1) l0 m).getD (j + 1) [] = _

          conv =>
            lhs
            rw [show resEntries cfg c edges (k + 1) l0 m =
              matAdd (postConv cfg c edges l0 m) m ::
                resEntries cfg c edges k (l0 + 1)
                  (matAdd (postConv cfg c edges l0 m) m) from rfl]
            rw [List.getD_cons_succ]
          rw [hrec]
          rfl

/-- C5: with residual enabled and normalisation disabled, the
features-list entry recorded for message-passing layer `l` equals the
layer-`l` convolution output (after the optional nonlinearity and the
attention variant's auxiliary projection) plus the entry recorded for the
immediately preceding layer — the in-place `features += features_list[-2]`
of the source mutates the tensor that was just appended to the list. -/
theorem c5_residual_entry (cfg : FEConfig) (c : Collab) (gs : GraphState)
    (hres : cfg.residual = true) (hnorm : cfg.normalize = false)
    (l : ℕ) (hl : l < cfg.n_layers) :
    (featuresList cfg c gs).getD (l + 2) [] =
      matAdd (postConv cfg c (augment cfg gs).edges l
          ((featuresList cfg c gs).getD (l + 1) []))
        ((featuresList cfg c gs).getD (l + 1) []) := by
  rw [featuresList_resid cfg c gs hres hnorm]
  rw [show l + 2 = (l + 1) + 1 from rfl, List.getD_cons_succ,
    List.getD_cons_succ, List.getD_cons_succ]
  have := resEntries_getD_cons cfg c (augment cfg gs).edges cfg.n_layers 0
    (c.embedder (augment cfg gs).features) l hl
  rw [Nat.zero_add] at this
  exact this

/-- Concrete configuration for the C5 witness: residual on, normalisation
off, one layer, no pooling rows, no conflict edges. -/
def cfgW5 : FEConfig :=
  { gconv_type := "gin", graph_pooling := "max", conflicts := "att"
    highmem_conflict_clique := false, mediummem_conflict_clique := true
    reverse_adj := true, residual := true, normalize := false
    graph_has_relu := false, max_n_machines := 2, n_layers := 1 }

/-- Concrete collaborators for the C5 witness. -/
def cW5 : Collab :=
  { embedder := fun m => m
    conv := fun _ m _ => m.map (fun r => r.map (fun q => q + 1))
    mlp := fun _ m => m
    act := fun q => q
    norm0 := fun m => m
    norm1 := fun m => m
    norms := fun _ m => m
    normsbis := fun _ m => m }

/-- Concrete graph batch for the C5 witness. -/
def gsW5 : GraphState :=
  { x := [[1, 2], [3, 4]], edgeSrc := [0], edgeTgt := [1]
    batch := [0, 0], ptr := [0, 2], numGraphs := 1 }

theorem c5_residual_entry_witness :
    (cfgW5.residual = true ∧ cfgW5.normalize = false ∧ 0 < cfgW5.n_layers) ∧
    (featuresList cfgW5 cW5 gsW5).getD 2 [] =
      matAdd (postConv cfgW5 cW5 (augment cfgW5 gsW5).edges 0
          ((featuresList cfgW5 cW5 gsW5).getD 1 []))
        ((featuresList cfgW5 cW5 gsW5).getD 1 []) :=
  ⟨⟨rfl, rfl, by decide⟩,
    c5_residual_entry cfgW5 cW5 gsW5 rfl rfl 0 (by decide)⟩

lemma drop_take_one {α : Type} (l : List α) (d : α) (n : ℕ)
    (h : n + 1 ≤ l.length) : (l.drop n).take 1 = [l.getD n d] := by
  rw [List.drop_eq_getElem_cons (by omega), List.take_succ_cons,
    List.take_zero, List.getD_eq_getElem _ _ (by omega)]

lemma applyReverse_features (cfg : FEConfig) (st : AugState) :
    (applyReverse cfg st).features = st.features := by
  unfold applyReverse
  split_ifs <;> rfl

lemma applyConflicts_features_len (cfg : FEConfig) (gs : GraphState)
    (st : AugState) :
    st.features.length ≤ (applyConflicts cfg gs st).features.length := by
  unfold applyConflicts
  split_ifs <;> simp

lemma applyPooling_features_len_learn (cfg : FEConfig) (gs : GraphState)
    (st : AugState) (hpool : cfg.graph_pooling = "learn") :
    (applyPooling cfg gs st).features.length =
      st.features.length + gs.numGraphs := by
  unfold applyPooling
  rw [if_pos hpool]
  simp

lemma augment_features_len_ge (cfg : FEConfig) (gs : GraphState)
    (hpool : cfg.graph_pooling = "learn") :
    gs.x.length + gs.numGraphs ≤ (augment cfg gs).features.length := by
  unfold augment
  rw [applyReverse_features]
  have h1 := applyConflicts_features_len cfg gs (applyPooling cfg gs (initAug gs))
  have h2 := applyPooling_features_len_learn cfg gs (initAug gs) hpool
  have h3 : (initAug gs).features.length = gs.x.length := rfl
  omega

lemma hcat_length (ms : List Mat) : (hcat ms).length = (ms.headD []).length := by
  simp [hcat]

lemma layerStep_snd (cfg : FEConfig) (c : Collab)
    (edges : List (ℕ × ℕ × ℤ)) (l : ℕ) (s : Mat × List Mat) :
    ∃ e, (layerStep cfg c edges l s).2 = s.2 ++ [e] := by
  unfold layerStep
  split_ifs <;> exact ⟨_, rfl⟩

lemma runLayers_snd_head (cfg : FEConfig) (c : Collab)
    (edges : List (ℕ × ℕ × ℤ)) :
    ∀ (k l : ℕ) (s : Mat × List Mat), s.2 ≠ [] →
      (runLayers cfg c edges k l s).2.headD [] = s.2.headD [] ∧
        (runLayers cfg c edges k l s).2 ≠ [] := by
  intro k
  induction k with
  | zero => intro l s hs; exact ⟨rfl, hs⟩
  | succ k ih =>
      intro l s hs
      have hstep : runLayers cfg c edges (k + 1) l s =
          runLayers cfg c edges k (l + 1) (layerStep cfg c edges l s) := rfl
      obtain ⟨e, he⟩ := layerStep_snd cfg c edges l s
      have hne : (layerStep cfg c edges l s).2 ≠ [] := by
        rw [he]; simp
      obtain ⟨h1, h2⟩ := ih (l + 1) (layerStep cfg c edges l s) hne
      refine ⟨?_, by rw [hstep]; exact h2⟩
      rw [hstep, h1, he]
      cases hcase : s.2 with
      | nil => exact absurd hcase hs
      | cons a t => simp

lemma featuresList_head (cfg : FEConfig) (c : Collab) (gs : GraphState)
    (hnorm : cfg.normalize = false) :
    (featuresList cfg c gs).headD [] = (augment cfg gs).features := by
  unfold featuresList
  rw [initMP_nonorm cfg c _ hnorm]
  exact (runLayers_snd_head cfg c _ cfg.n_layers 0 _ (by simp)).1

/-- C3: with learned pooling on a single graph of 4 nodes, the graph
embedding `forward` reads out is exactly row index 4 of the final
concatenated feature tensor — the virtual pooling row appended right after
the 4 real nodes — and cannot equal any of rows 0–3 unless that row happens
to coincide with row 4. -/
theorem c3_learned_pooling_reads_row4 (cfg : FEConfig) (c : Collab)
    (gs : GraphState) (bs n : ℕ)
    (hpool : cfg.graph_pooling = "learn") (hnorm : cfg.normalize = false)
    (hB : gs.numGraphs = 1) (hx : gs.x.length = 4) :
    graphEmbeddingStage cfg.graph_pooling (finalFeatures cfg c gs)
        gs.x.length gs.numGraphs bs n =
      Except.ok [(finalFeatures cfg c gs).getD 4 []] ∧
    (∀ i, i < 4 →
      (finalFeatures cfg c gs).getD i [] ≠ (finalFeatures cfg c gs).getD 4 [] →
      graphEmbeddingStage cfg.graph_pooling (finalFeatures cfg c gs)
          gs.x.length gs.numGraphs bs n ≠
        Except.ok [(finalFeatures cfg c gs).getD i []]) := by
  have hlen : 5 ≤ (finalFeatures cfg c gs).length := by
    unfold finalFeatures
    rw [hcat_length, featuresList_head cfg c gs hnorm]
    have := augment_features_len_ge cfg gs hpool
    omega
  have hstage : graphEmbeddingStage cfg.graph_pooling (finalFeatures cfg c gs)
      gs.x.length gs.numGraphs bs n =
      Except.ok [(finalFeatures cfg c gs).getD 4 []] := by
    unfold graphEmbeddingStage
    rw [hpool]
    simp only [reduceIte, String.reduceEq]
    rw [hB, hx, drop_take_one _ [] 4 hlen]
  refine ⟨hstage, ?_⟩
  intro i _ hne heq
  rw [hstage] at heq
  exact hne (by simpa using heq.symm)

/-- Concrete learned-pooling configuration for the C3 witness. -/
def cfgW3 : FEConfig :=
  { gconv_type := "gin", graph_pooling := "learn", conflicts := "att"
    highmem_conflict_clique := false, mediummem_conflict_clique := true
    reverse_adj := true, residual := true, normalize := false
    graph_has_relu := false, max_n_machines := 2, n_layers := 1 }

/-- Concrete collaborators for the C3 witness. -/
def cW3 : Collab :=
  { embedder := fun m => m
    conv := fun _ m _ => m.map (fun r => r.map (fun q => q + q))
    mlp := fun _ m => m
    act := fun q => q
    norm0 := fun m => m
    norm1 := fun m => m
    norms := fun _ m => m
    normsbis := fun _ m => m }

/-- Concrete single-graph 4-node batch for the C3 witness. -/
def gsW3 : GraphState :=
  { x := [[1], [2], [3], [4]], edgeSrc := [0, 1, 2], edgeTgt := [1, 2, 3]
    batch := [0, 0, 0, 0], ptr := [0, 4], numGraphs := 1 }

theorem c3_learned_pooling_reads_row4_witness :
    (cfgW3.graph_pooling = "learn" ∧ cfgW3.normalize = false ∧
      gsW3.numGraphs = 1 ∧ gsW3.x.length = 4) ∧
    graphEmbeddingStage cfgW3.graph_pooling (finalFeatures cfgW3 cW3 gsW3)
        gsW3.x.length gsW3.numGraphs 1 4 =
      Except.ok [(finalFeatures cfgW3 cW3 gsW3).getD 4 []] :=
  ⟨⟨rfl, rfl, rfl, rfl⟩,
    (c3_learned_pooling_reads_row4 cfgW3 cW3 gsW3 1 4 rfl rfl rfl rfl).1⟩

lemma mem_idxaffected_lt (maxM : ℕ) (x : Mat) {i : ℕ}
    (hi : i ∈ idxaffected maxM x) : i < x.length := by
  unfold idxaffected at hi
  rw [List.mem_filter] at hi
  exact List.mem_range.mp hi.1

/-- C6: no conflict-edge generation path — any of the three clique
strategies or the node-conflict hub construction — ever emits a self-loop:
every generated edge has distinct source and target. -/
theorem c6_no_self_loops (maxM : ℕ) (x : Mat) (batch ptr : List ℕ)
    (nB nodeOffset : ℕ) (hoff : x.length ≤ nodeOffset) :
    ((highmemConflicts maxM x batch ++ mediummemConflicts maxM x ptr nB ++
        lowmemConflicts maxM x ptr nB ++
        nodeConflictEdges maxM nodeOffset x batch).all
      (fun e => e.1 != e.2.1)) = true := by
  rw [List.all_eq_true]
  intro e he
  simp only [List.mem_append] at he
  rcases he with ((hh | hm) | hl) | hn
  · rw [highmem_mem] at hh
    obtain ⟨i, _, j, _, hc, ht⟩ := hh
    have hij := (highmemCond_spec hc).2.2.2.2
    subst ht
    simpa using hij
  · rw [medium_mem] at hm
    obtain ⟨bi, _, i, _, j, _, hc, ht⟩ := hm
    have hij := (mediumCond_spec hc).2.2.2
    subst ht
    simp only [bne_iff_ne, ne_eq]
    omega
  · rw [lowmem_mem] at hl
    obtain ⟨bi, _, d1, _, _, d2, _, _, _, hmem⟩ := hl
    rcases hmem with ht | ht <;> subst ht <;>
      simp only [bne_iff_ne, ne_eq] <;> omega
  · unfold nodeConflictEdges at hn
    rw [List.mem_append] at hn
    rcases hn with hn | hn <;> rw [List.mem_map] at hn <;>
      obtain ⟨i, hi, ht⟩ := hn <;> subst ht <;>
      have hlt := mem_idxaffected_lt maxM x hi <;>
      simp only [bne_iff_ne, ne_eq, targetmachinenode] <;> omega

/-- Concrete feature matrix for the C6 witness: three tasks of one graph on
machine 0, plus an unassigned task. -/
def xW6 : Mat :=
  [[0, 0, 0, 0, 0, 0, 1, 0], [1, 0, 0, 0, 0, 0, 1, 0],
   [0, 0, 0, 0, 0, 0, 1, 0], [0, 0, 0, 0, 0, 0, 0, 0]]

theorem c6_no_self_loops_witness :
    xW6.length ≤ 4 ∧
    ((highmemConflicts 2 xW6 [0, 0, 0, 0] ++
        mediummemConflicts 2 xW6 [0, 4] 1 ++
        lowmemConflicts 2 xW6 [0, 4] 1 ++
        nodeConflictEdges 2 4 xW6 [0, 0, 0, 0]).all
      (fun e => e.1 != e.2.1)) = true :=
  ⟨by decide, c6_no_self_loops 2 xW6 [0, 0, 0, 0] [0, 4] 1 4 (by decide)⟩

lemma le_foldl_max (t : List ℚ) : ∀ b : ℚ, b ≤ t.foldl max b := by
  induction t with
  | nil => intro b; exact le_refl b
  | cons c t ih =>
      intro b
      exact le_trans (le_max_left b c) (ih (max b c))

lemma mem_le_foldl_max (t : List ℚ) : ∀ (b : ℚ), ∀ a ∈ t, a ≤ t.foldl max b := by
  induction t with
  | nil => intro b a ha; simp at ha
  | cons c t ih =>
      intro b a ha
      rcases List.mem_cons.mp ha with h | h
      · subst h
        exact le_trans (le_max_right b a) (le_foldl_max t (max b a))
      · exact ih (max b c) a h

lemma foldl_max_mem (t : List ℚ) : ∀ b : ℚ,
    t.foldl max b = b ∨ t.foldl max b ∈ t := by
  induction t with
  | nil => intro b; exact Or.inl rfl
  | cons c t ih =>
      intro b
      rcases ih (max b c) with h | h
      · rcases max_choice b c with hm | hm
        · exact Or.inl (by rw [List.foldl_cons, h, hm])
        · exact Or.inr (by rw [List.foldl_cons, h, hm]; exact List.mem_cons_self c t)
      · exact Or.inr (List.mem_cons_of_mem c h)

lemma listMax_eq_zero_iff_01 (l : List ℚ)
    (h01 : ∀ q ∈ l, q = 0 ∨ q = 1) :
    listMax l = 0 ↔ ∀ q ∈ l, q = 0 := by
  cases l with
  | nil => simp [listMax]
  | cons a t =>
      have hdef : listMax (a :: t) = t.foldl max a := rfl
      rw [hdef]
      constructor
      · intro hz q hq
        have hle : q ≤ t.foldl max a := by
          rcases List.mem_cons.mp hq with h | h
          · subst h
            exact le_foldl_max t q
          · exact mem_le_foldl_max t a q h
        rw [hz] at hle
        rcases h01 q hq with h2 | h2
        · exact h2
        · rw [h2] at hle; norm_num at hle
      · intro hall
        rcases foldl_max_mem t a with h | h
        · rw [h]; exact hall a (List.mem_cons_self a t)
        · exact hall _ (List.mem_cons_of_mem a h)

lemma machineid_neg1_iff_allZero (maxM : ℕ) (x : Mat) (i : ℕ)
    (h01 : ∀ q ∈ machineSlice maxM (rowOf x i), q = 0 ∨ q = 1) :
    (machineid maxM x i = -1) ↔ allZero (machineSlice maxM (rowOf x i)) = true := by
  unfold machineid machineidOf allZero
  rw [List.all_eq_true]
  constructor
  · intro h
    split at h
    · rename_i hz
      intro q hq
      simpa using (listMax_eq_zero_iff_01 _ h01).mp hz q hq
    · omega
  · intro hall
    rw [if_pos ((listMax_eq_zero_iff_01 _ h01).mpr (fun q hq => by
      simpa using hall q hq))]

/-- C7: in node-conflict mode, the number of edges added by the conflict
stage is exactly twice the number of task nodes whose machine one-hot block
is not all-zero — one task→hub and one hub→task edge per assigned task. -/
theorem c7_node_mode_edge_count (maxM nodeOffset : ℕ) (x : Mat)
    (batch : List ℕ)
    (hwf : ∀ i, i < x.length →
      ∀ q ∈ machineSlice maxM (rowOf x i), q = 0 ∨ q = 1) :
    (nodeConflictEdges maxM nodeOffset x batch).length =
      2 * ((List.range x.length).filter
        (fun i => !allZero (machineSlice maxM (rowOf x i)))).length := by
  unfold nodeConflictEdges idxaffected
  rw [List.length_append, List.length_map, List.length_map]
  have hcong : (List.range x.length).filter
      (fun i => machineid maxM x i ≠ -1) =
      (List.range x.length).filter
        (fun i => !allZero (machineSlice maxM (rowOf x i))) := by
    apply List.filter_congr
    intro i hi
    rw [List.mem_range] at hi
    have hiff := machineid_neg1_iff_allZero maxM x i (hwf i hi)
    by_cases hz : allZero (machineSlice maxM (rowOf x i)) = true
    · rw [hz]
      simp [hiff.mpr hz]
    · simp only [Bool.not_eq_true] at hz
      rw [hz]
      simp only [Bool.not_false, decide_eq_true_eq]
      intro hcontra
      rw [hiff.mp hcontra] at hz
      simp at hz
  rw [hcong]
  omega

/-- Concrete feature matrix for the C7 witness: two assigned tasks (machines
0 and 1) and one unassigned task. -/
def xW7 : Mat :=
  [[0, 0, 0, 0, 0, 0, 1, 0], [1, 0, 0, 0, 0, 0, 0, 1],
   [0, 0, 0, 0, 0, 0, 0, 0]]

theorem c7_node_mode_edge_count_witness :
    (∀ i, i < xW7.length →
      ∀ q ∈ machineSlice 2 (rowOf xW7 i), q = 0 ∨ q = 1) ∧
    (nodeConflictEdges 2 3 xW7 [0, 0, 0]).length =
      2 * ((List.range xW7.length).filter
        (fun i => !allZero (machineSlice 2 (rowOf xW7 i)))).length :=
  ⟨by decide, c7_node_mode_edge_count 2 3 xW7 [0, 0, 0] (by decide)⟩

lemma listMax_mem (l : List ℚ) (hne : l ≠ []) : listMax l ∈ l := by
  cases l with
  | nil => exact absurd rfl hne
  | cons a t =>
      have hdef : listMax (a :: t) = t.foldl max a := rfl
      rw [hdef]
      rcases foldl_max_mem t a with h | h
      · rw [h]; exact List.mem_cons_self a t
      · exact List.mem_cons_of_mem a h

lemma listMax_ub (l : List ℚ) : ∀ q ∈ l, q ≤ listMax l := by
  cases l with
  | nil => intro q hq; simp at hq
  | cons a t =>
      intro q hq
      have hdef : listMax (a :: t) = t.foldl max a := rfl
      rw [hdef]
      rcases List.mem_cons.mp hq with h | h
      · subst h; exact le_foldl_max t q
      · exact mem_le_foldl_max t a q h

lemma listMax_perm {l1 l2 : List ℚ} (hp : l1.Perm l2) :
    listMax l1 = listMax l2 := by
  cases l1 with
  | nil =>
      have : l2 = [] := List.Perm.nil_eq hp |>.symm
      rw [this]
  | cons a t =>
      have hne1 : (a :: t) ≠ [] := by simp
      have hne2 : l2 ≠ [] := by
        intro h
        subst h
        exact absurd hp.symm.nil_eq (by simp)
      apply le_antisymm
      · exact listMax_ub l2 _ (hp.mem_iff.mp (listMax_mem _ hne1))
      · exact listMax_ub (a :: t) _ (hp.mem_iff.mpr (listMax_mem _ hne2))

lemma ext_getD {W : ℕ} (l1 l2 : List ℚ) (h1 : l1.length = W)
    (h2 : l2.length = W) (h : ∀ j, j < W → l1.getD j 0 = l2.getD j 0) :
    l1 = l2 := by
  apply List.ext_getElem (by omega)
  intro j hj1 hj2
  have := h j (by omega)
  rwa [List.getD_eq_getElem _ _ hj1, List.getD_eq_getElem _ _ hj2] at this

lemma foldl_zipmax_length (W : ℕ) :
    ∀ (t : List (List ℚ)) (r : List ℚ), r.length = W →
      (∀ s ∈ t, s.length = W) →
      (t.foldl (fun acc s => acc.zipWith max s) r).length = W := by
  intro t
  induction t with
  | nil => intro r hr _; exact hr
  | cons c t ih =>
      intro r hr hall
      rw [List.foldl_cons]
      exact ih _ (by rw [List.length_zipWith, hr, hall c (by simp)]; omega)
        (fun s hs => hall s (List.mem_cons_of_mem c hs))

lemma foldl_zipmax_getD (W : ℕ) :
    ∀ (t : List (List ℚ)) (r : List ℚ), r.length = W →
      (∀ s ∈ t, s.length = W) → ∀ j, j < W →
      (t.foldl (fun acc s => acc.zipWith max s) r).getD j 0 =
        listMax ((r :: t).map (fun s => s.getD j 0)) := by
  intro t
  induction t with
  | nil =>
      intro r hr _ j hj
      rfl
  | cons c t ih =>
      intro r hr hall j hj
      rw [List.foldl_cons]
      have hcw : c.length = W := hall c (by simp)
      have hzw : (r.zipWith max c).length = W := by
        rw [List.length_zipWith, hr, hcw]; omega
      rw [ih (r.zipWith max c) hzw
        (fun s hs => hall s (List.mem_cons_of_mem c hs)) j hj]
      have hget : (r.zipWith max c).getD j 0 = max (r.getD j 0) (c.getD j 0) := by
        rw [List.getD_eq_getElem _ _ (by omega),
          List.getD_eq_getElem _ _ (by omega : j < r.length),
          List.getD_eq_getElem _ _ (by omega : j < c.length),
          List.getElem_zipWith]
      rw [List.map_cons, List.map_cons, hget]
      rfl

lemma colMax_getD_column (W : ℕ) (m : Mat) (hrect : ∀ r ∈ m, r.length = W)
    (hne : m ≠ []) : ∀ j, j < W →
    (colMax m).getD j 0 = listMax (m.map (fun s => s.getD j 0)) := by
  cases m with
  | nil => exact absurd rfl hne
  | cons r t =>
      intro j hj
      have hdef : colMax (r :: t) = t.foldl (fun acc s => acc.zipWith max s) r :=
        rfl
      rw [hdef]
      exact foldl_zipmax_getD W t r (hrect r (by simp))
        (fun s hs => hrect s (List.mem_cons_of_mem r hs)) j hj

lemma colMax_length (W : ℕ) (m : Mat) (hrect : ∀ r ∈ m, r.length = W)
    (hne : m ≠ []) : (colMax m).length = W := by
  cases m with
  | nil => exact absurd rfl hne
  | cons r t =>
      exact foldl_zipmax_length W t r (hrect r (by simp))
        (fun s hs => hrect s (List.mem_cons_of_mem r hs))

lemma colMax_perm (W : ℕ) (m1 m2 : Mat) (hrect1 : ∀ r ∈ m1, r.length = W)
    (hne1 : m1 ≠ []) (hp : m1.Perm m2) : colMax m1 = colMax m2 := by
  have hrect2 : ∀ r ∈ m2, r.length = W :=
    fun r hr => hrect1 r (hp.mem_iff.mpr hr)
  have hne2 : m2 ≠ [] := by
    intro h
    subst h
    exact absurd hp.symm.nil_eq (by simpa using hne1)
  apply ext_getD _ _ (colMax_length W m1 hrect1 hne1)
    (colMax_length W m2 hrect2 hne2)
  intro j hj
  rw [colMax_getD_column W m1 hrect1 hne1 j hj,
    colMax_getD_column W m2 hrect2 hne2 j hj]
  exact listMax_perm (hp.map _)

lemma foldl_vecAdd_length (W : ℕ) :
    ∀ (t : List (List ℚ)) (r : List ℚ), r.length = W →
      (∀ s ∈ t, s.length = W) → (t.foldl vecAdd r).length = W := by
  intro t
  induction t with
  | nil => intro r hr _; exact hr
  | cons c t ih =>
      intro r hr hall
      rw [List.foldl_cons]
      exact ih _ (by
        unfold vecAdd
        rw [List.length_zipWith, hr, hall c (by simp)]; omega)
        (fun s hs => hall s (List.mem_cons_of_mem c hs))

lemma foldl_vecAdd_getD (W : ℕ) :
    ∀ (t : List (List ℚ)) (r : List ℚ), r.length = W →
      (∀ s ∈ t, s.length = W) → ∀ j, j < W →
      (t.foldl vecAdd r).getD j 0 =
        ((r :: t).map (fun s => s.getD j 0)).sum := by
  intro t
  induction t with
  | nil =>
      intro r hr _ j hj
      simp
  | cons c t ih =>
      intro r hr hall j hj
      rw [List.foldl_cons]
      have hcw : c.length = W := hall c (by simp)
      have hzw : (vecAdd r c).length = W := by
        unfold vecAdd
        rw [List.length_zipWith, hr, hcw]; omega
      rw [ih (vecAdd r c) hzw
        (fun s hs => hall s (List.mem_cons_of_mem c hs)) j hj]
      have hget : (vecAdd r c).getD j 0 = r.getD j 0 + c.getD j 0 := by
        unfold vecAdd at hzw ⊢
        rw [List.getD_eq_getElem _ _ (by omega),
          List.getD_eq_getElem _ _ (by omega : j < r.length),
          List.getD_eq_getElem _ _ (by omega : j < c.length),
          List.getElem_zipWith]
      rw [List.map_cons, List.map_cons, hget, List.map_cons,
        List.sum_cons, List.sum_cons, List.sum_cons]
      ring

lemma colMean_length (W nn : ℕ) (m : Mat) (hrect : ∀ r ∈ m, r.length = W)
    (hne : m ≠ []) : (colMean nn m).length = W := by
  cases m with
  | nil => exact absurd rfl hne
  | cons r t =>
      have hdef : colMean nn (r :: t) = (t.foldl vecAdd r).map (· / (nn : ℚ)) :=
        rfl
      rw [hdef, List.length_map]
      exact foldl_vecAdd_length W t r (hrect r (by simp))
        (fun s hs => hrect s (List.mem_cons_of_mem r hs))

lemma colMean_getD_column (W nn : ℕ) (m : Mat)
    (hrect : ∀ r ∈ m, r.length = W) (hne : m ≠ []) : ∀ j, j < W →
    (colMean nn m).getD j 0 =
      (m.map (fun s => s.getD j 0)).sum / (nn : ℚ) := by
  cases m with
  | nil => exact absurd rfl hne
  | cons r t =>
      intro j hj
      have hdef : colMean nn (r :: t) = (t.foldl vecAdd r).map (· / (nn : ℚ)) :=
        rfl
      have hlw : (t.foldl vecAdd r).length = W :=
        foldl_vecAdd_length W t r (hrect r (by simp))
          (fun s hs => hrect s (List.mem_cons_of_mem r hs))
      rw [hdef, List.getD_eq_getElem _ _ (by rw [List.length_map]; omega),
        List.getElem_map, ← List.getD_eq_getElem _ 0 (by omega : j < (t.foldl vecAdd r).length),
        foldl_vecAdd_getD W t r (hrect r (by simp))
          (fun s hs => hrect s (List.mem_cons_of_mem r hs)) j hj]

lemma colMean_perm (W nn : ℕ) (m1 m2 : Mat)
    (hrect1 : ∀ r ∈ m1, r.length = W) (hne1 : m1 ≠ []) (hp : m1.Perm m2) :
    colMean nn m1 = colMean nn m2 := by
  have hrect2 : ∀ r ∈ m2, r.length = W :=
    fun r hr => hrect1 r (hp.mem_iff.mpr hr)
  have hne2 : m2 ≠ [] := by
    intro h
    subst h
    exact absurd hp.symm.nil_eq (by simpa using hne1)
  apply ext_getD _ _ (colMean_length W nn m1 hrect1 hne1)
    (colMean_length W nn m2 hrect2 hne2)
  intro j hj
  rw [colMean_getD_column W nn m1 hrect1 hne1 j hj,
    colMean_getD_column W nn m2 hrect2 hne2 j hj,
    List.Perm.sum_eq (hp.map _)]

lemma nodeChunks_facts (final : Mat) (realN bs n W : ℕ)
    (hrect : ∀ r ∈ final.take realN, r.length = W)
    (hcount : realN = bs * n) (hlen : realN ≤ final.length) :
    ∀ ch ∈ nodeChunks final realN bs n,
      ch.length = n ∧ ∀ r ∈ ch, r.length = W := by
  intro ch hch
  unfold nodeChunks at hch
  rw [List.mem_map] at hch
  obtain ⟨b, hb, hch⟩ := hch
  rw [List.mem_range] at hb
  subst hch
  constructor
  · rw [List.length_take, List.length_drop, List.length_take]
    have hmul : (b + 1) * n ≤ bs * n := Nat.mul_le_mul_right n (by omega)
    have hsucc : (b + 1) * n = b * n + n := by ring
    omega
  · intro r hr
    exact hrect r (List.drop_subset _ _ (List.take_subset _ _ hr))

lemma map_colMax_colMean_eq (W nn : ℕ) (hnn : 0 < nn) :
    ∀ {cs1 cs2 : List Mat}, List.Forall₂ (fun u v => u.Perm v) cs1 cs2 →
      (∀ ch ∈ cs1, ch.length = nn ∧ ∀ r ∈ ch, r.length = W) →
      cs1.map colMax = cs2.map colMax ∧
        cs1.map (colMean nn) = cs2.map (colMean nn) := by
  intro cs1 cs2 h
  induction h with
  | nil => exact fun _ => ⟨rfl, rfl⟩
  | cons hp hrest ih =>
      rename_i ch1 ch2 t1 t2
      intro hfacts
      have h1 := hfacts ch1 (by simp)
      have hne : ch1 ≠ [] := by
        intro h
        rw [h] at h1
        simp at h1
        omega
      have htail := ih (fun ch hch => hfacts ch (List.mem_cons_of_mem _ hch))
      refine ⟨?_, ?_⟩
      · rw [List.map_cons, List.map_cons,
          colMax_perm W ch1 ch2 h1.2 hne hp, htail.1]
      · rw [List.map_cons, List.map_cons,
          colMean_perm W nn ch1 ch2 h1.2 hne hp, htail.2]

/-- C8: the `"max"` and `"avg"` readouts are permutation-invariant — if the
per-graph blocks of node rows of two final feature tensors are
row-permutations of each other, both readout modes produce identical graph
embeddings. -/
theorem c8_readout_perm_invariant (final1 final2 : Mat)
    (realN bs n W nB1 nB2 : ℕ)
    (hr1 : ∀ r ∈ final1.take realN, r.length = W)
    (hlen1 : realN ≤ final1.length) (hlen2 : realN ≤ final2.length)
    (hcount : realN = bs * n) (hn : 0 < n)
    (hperm : List.Forall₂ (fun u v => u.Perm v)
      (nodeChunks final1 realN bs n) (nodeChunks final2 realN bs n)) :
    graphEmbeddingStage "max" final1 realN nB1 bs n =
      graphEmbeddingStage "max" final2 realN nB2 bs n ∧
    graphEmbeddingStage "avg" final1 realN nB1 bs n =
      graphEmbeddingStage "avg" final2 realN nB2 bs n := by
  have hfacts := nodeChunks_facts final1 realN bs n W hr1 hcount hlen1
  have hmaps := map_colMax_colMean_eq W n hn hperm hfacts
  unfold graphEmbeddingStage
  simp only [reduceIte, String.reduceEq]
  exact ⟨by rw [hmaps.1], by rw [hmaps.2]⟩

/-- Concrete pair of final tensors for the C8 witness: the second is the
first with the two rows of its single graph block swapped. -/
def finalW8a : Mat := [[1, 5], [2, 4]]

/-- Row-swapped version of `finalW8a`. -/
def finalW8b : Mat := [[2, 4], [1, 5]]

theorem c8_readout_perm_invariant_witness :
    ((∀ r ∈ finalW8a.take 2, r.length = 2) ∧ 2 ≤ finalW8a.length ∧
      2 ≤ finalW8b.length ∧ 2 = 1 * 2 ∧ 0 < 2 ∧
      List.Forall₂ (fun u v => u.Perm v)
        (nodeChunks finalW8a 2 1 2) (nodeChunks finalW8b 2 1 2)) ∧
    graphEmbeddingStage "max" finalW8a 2 0 1 2 =
      graphEmbeddingStage "max" finalW8b 2 0 1 2 :=
  ⟨⟨by decide, by decide, by decide, by decide, by decide, by
      refine List.Forall₂.cons ?_ List.Forall₂.nil
      decide⟩,
    (c8_readout_perm_invariant finalW8a finalW8b 2 1 2 2 0 0
      (by decide) (by decide) (by decide) (by decide) (by decide)
      (by refine List.Forall₂.cons ?_ List.Forall₂.nil; decide)).1⟩

/-- The data-model invariant on one node row: the machine block has width
`maxM` and is either all-zero (unassigned) or a one-hot vector. -/
def OneHotOrZeroRow (maxM : ℕ) (row : List ℚ) : Prop :=
  (machineSlice maxM row).length = maxM ∧
  ((∀ q ∈ machineSlice maxM row, q = 0) ∨
    ∃ k, k < maxM ∧ ∀ j, j < maxM →
      (machineSlice maxM row).getD j 0 = if j = k then 1 else 0)

lemma foldl_max_const : ∀ (t : List ℚ) (b : ℚ), (∀ q ∈ t, q ≤ b) →
    t.foldl max b = b := by
  intro t
  induction t with
  | nil => intro b _; rfl
  | cons c t ih =>
      intro b hle
      rw [List.foldl_cons, max_eq_left (hle c (by simp))]
      exact ih b (fun q hq => hle q (List.mem_cons_of_mem c hq))

lemma foldl_max_eq_max_listMax : ∀ (t : List ℚ), t ≠ [] → ∀ b : ℚ,
    t.foldl max b = max b (listMax t) := by
  intro t
  induction t with
  | nil => intro h; exact absurd rfl h
  | cons c t ih =>
      intro _ b
      cases t with
      | nil => rfl
      | cons c2 t2 =>
          rw [List.foldl_cons, ih (by simp) (max b c),
            show listMax (c :: c2 :: t2) = (c2 :: t2).foldl max c from rfl,
            ih (by simp) c, max_assoc]

lemma onehot_listMax_argmax : ∀ (l : List ℚ) (k : ℕ), k < l.length →
    (∀ j, j < l.length → l.getD j 0 = if j = k then 1 else 0) →
    listMax l = 1 ∧ argmaxFirst l = k := by
  intro l
  induction l with
  | nil => intro k hk; simp at hk
  | cons a t ih =>
      intro k hk hoh
      have ha := hoh 0 (by simp)
      rw [List.getD_cons_zero] at ha
      cases k with
      | zero =>
          rw [if_pos rfl] at ha
          have htz : ∀ q ∈ t, q ≤ 1 := by
            intro q hq
            obtain ⟨j, hj, hq⟩ := List.mem_iff_getElem.mp hq
            have := hoh (j + 1) (by simpa using hj)
            rw [List.getD_cons_succ, List.getD_eq_getElem _ _ hj, hq] at this
            rw [if_neg (by omega)] at this
            rw [this]
            norm_num
          have hmax : listMax (a :: t) = 1 := by
            rw [show listMax (a :: t) = t.foldl max a from rfl, ha]
            exact foldl_max_const t 1 htz
          refine ⟨hmax, ?_⟩
          unfold argmaxFirst
          rw [if_pos (by rw [hmax, ha])]
      | succ k2 =>
          rw [if_neg (by omega)] at ha
          have htk : k2 < t.length := by simpa using hk
          have hoht : ∀ j, j < t.length → t.getD j 0 = if j = k2 then 1 else 0 := by
            intro j hj
            have := hoh (j + 1) (by simpa using hj)
            rw [List.getD_cons_succ] at this
            rw [this]
            by_cases h : j = k2
            · rw [if_pos h, if_pos (by omega)]
            · rw [if_neg h, if_neg (by omega)]
          obtain ⟨hmaxt, hargt⟩ := ih k2 htk hoht
          have htne : t ≠ [] := by
            intro h
            rw [h] at htk
            simp at htk
          have hmax : listMax (a :: t) = 1 := by
            rw [show listMax (a :: t) = t.foldl max a from rfl,
              foldl_max_eq_max_listMax t htne a, hmaxt, ha]
            norm_num
          refine ⟨hmax, ?_⟩
          unfold argmaxFirst
          rw [if_neg (by rw [hmax, ha]; norm_num), hargt]

lemma allZero_iff (l : List ℚ) : allZero l = true ↔ ∀ q ∈ l, q = 0 := by
  unfold allZero
  rw [List.all_eq_true]
  constructor
  · intro h q hq; simpa using h q hq
  · intro h q hq; simpa using h q hq

lemma onehot_not_allZero (l : List ℚ) (k : ℕ) (hk : k < l.length)
    (hoh : ∀ j, j < l.length → l.getD j 0 = if j = k then 1 else 0) :
    allZero l = false := by
  by_contra h
  rw [Bool.not_eq_false, allZero_iff] at h
  have h1 := hoh k hk
  rw [if_pos rfl] at h1
  have h0 := h (l.getD k 0) (by
    rw [List.getD_eq_getElem _ _ hk]
    exact List.getElem_mem hk)
  rw [h1] at h0
  norm_num at h0

lemma machineidOf_allzero (maxM : ℕ) (row : List ℚ)
    (hz : ∀ q ∈ machineSlice maxM row, q = 0) :
    machineidOf maxM row = -1 := by
  unfold machineidOf
  rw [if_pos ((listMax_eq_zero_iff_01 _ (fun q hq => Or.inl (hz q hq))).mpr hz)]

lemma machineidOf_onehot (maxM : ℕ) (row : List ℚ) (k : ℕ)
    (hlen : (machineSlice maxM row).length = maxM) (hk : k < maxM)
    (hoh : ∀ j, j < maxM →
      (machineSlice maxM row).getD j 0 = if j = k then 1 else 0) :
    machineidOf maxM row = (k : ℤ) ∧
      argmaxFirst (machineSlice maxM row) = k ∧
      allZero (machineSlice maxM row) = false := by
  obtain ⟨hmax, harg⟩ := onehot_listMax_argmax (machineSlice maxM row) k
    (by omega) (by rw [hlen]; exact hoh)
  refine ⟨?_, harg, onehot_not_allZero _ k (by omega) (by rw [hlen]; exact hoh)⟩
  unfold machineidOf
  rw [if_neg (by rw [hmax]; norm_num), harg]

lemma onehot_slice_eq_iff (maxM : ℕ) (r1 r2 : List ℚ) (k1 k2 : ℕ)
    (hl1 : (machineSlice maxM r1).length = maxM)
    (hl2 : (machineSlice maxM r2).length = maxM)
    (hk1 : k1 < maxM) (hk2 : k2 < maxM)
    (hoh1 : ∀ j, j < maxM →
      (machineSlice maxM r1).getD j 0 = if j = k1 then 1 else 0)
    (hoh2 : ∀ j, j < maxM →
      (machineSlice maxM r2).getD j 0 = if j = k2 then 1 else 0) :
    (machineSlice maxM r1 = machineSlice maxM r2) ↔ k1 = k2 := by
  constructor
  · intro heq
    have h1 := hoh1 k1 hk1
    rw [if_pos rfl] at h1
    have h2 := hoh2 k1 hk1
    rw [heq, h2] at h1
    by_contra hne
    rw [if_neg (fun h => hne h)] at h1
    norm_num at h1
  · intro heq
    subst heq
    apply ext_getD _ _ hl1 hl2
    intro j hj
    rw [hoh1 j hj, hoh2 j hj]

lemma ptr_partition (ptr : List ℕ) (nB : ℕ)
    (hptr0 : ptr.getD 0 0 = 0)
    (hmono : ∀ g, g < nB → ptr.getD g 0 ≤ ptr.getD (g + 1) 0) :
    ∀ kk, kk < ptr.getD nB 0 →
      ∃ g, g < nB ∧ ptr.getD g 0 ≤ kk ∧ kk < ptr.getD (g + 1) 0 := by
  induction nB with
  | zero => intro kk h; rw [hptr0] at h; omega
  | succ nB ih =>
      intro kk h
      by_cases hcase : kk < ptr.getD nB 0
      · obtain ⟨g, hg, hglo, hghi⟩ :=
          ih (fun g hgn => hmono g (by omega)) kk hcase
        exact ⟨g, by omega, hglo, hghi⟩
      · exact ⟨nB, by omega, by omega, h⟩

lemma ptr_mono_le (ptr : List ℕ) (nB : ℕ)
    (hmono : ∀ g, g < nB → ptr.getD g 0 ≤ ptr.getD (g + 1) 0) :
    ∀ b, b ≤ nB → ∀ a, a ≤ b → ptr.getD a 0 ≤ ptr.getD b 0 := by
  intro b
  induction b with
  | zero =>
      intro _ a ha
      have haz : a = 0 := by omega
      rw [haz]
  | succ b ih =>
      intro hb a ha
      by_cases hcase : a = b + 1
      · rw [hcase]
      · exact le_trans (ih (by omega) a (by omega)) (hmono b (by omega))

/-- The well-formedness invariants of a graph batch stated by the data
model: pointer offsets start at 0, are monotone, end at the node count,
agree with the per-node batch ids, machine blocks are one-hot or all-zero,
and affectation flags are 0/1. -/
structure BatchWF (maxM : ℕ) (x : Mat) (batch ptr : List ℕ) (nB : ℕ) : Prop where
  ptr_last : ptr.getD nB 0 = x.length
  ptr_zero : ptr.getD 0 0 = 0
  ptr_mono : ∀ g, g < nB → ptr.getD g 0 ≤ ptr.getD (g + 1) 0
  batch_eq : ∀ g, g < nB → ∀ k, ptr.getD g 0 ≤ k → k < ptr.getD (g + 1) 0 →
    batch.getD k 0 = g
  rows : ∀ i, i < x.length → OneHotOrZeroRow maxM (rowOf x i)
  aff01 : ∀ i, i < x.length → affFlag x i = 0 ∨ affFlag x i = 1

/-- The common reference description of one clique-conflict edge: an ordered
pair of distinct nodes of the same graph, both assigned, assigned to the
same machine, not both affected, typed by that machine id plus 3. -/
def CliqueSpec (maxM : ℕ) (x : Mat) (ptr : List ℕ) (nB : ℕ)
    (t : ℕ × ℕ × ℤ) : Prop :=
  ∃ g, g < nB ∧ ∃ i j : ℕ,
    ptr.getD g 0 ≤ i ∧ i < ptr.getD (g + 1) 0 ∧
    ptr.getD g 0 ≤ j ∧ j < ptr.getD (g + 1) 0 ∧ i ≠ j ∧
    machineid maxM x i ≠ -1 ∧
    machineid maxM x j = machineid maxM x i ∧
    ¬(affFlag x i = 1 ∧ affFlag x j = 1) ∧
    t = (i, j, machineid maxM x i + 3)

lemma highmemCond_intro (maxM : ℕ) (x : Mat) (batch : List ℕ) (i j : ℕ)
    (hm : machineid maxM x j = machineid maxM x i)
    (hne1 : machineid maxM x i ≠ -1)
    (hb : batch.getD j 0 = batch.getD i 0)
    (ha : ¬(affFlag x j ≠ 0 ∧ affFlag x i ≠ 0))
    (hij : i ≠ j) : highmemCond maxM x batch i j = true := by
  unfold highmemCond machineidM2
  rw [if_neg hne1]
  simp only [Bool.and_eq_true, decide_eq_true_eq, Bool.not_eq_eq_eq_not,
    Bool.not_true, Bool.and_eq_false_iff, decide_eq_false_iff_not]
  refine ⟨⟨⟨hm, hb⟩, ?_⟩, hij⟩
  by_cases h1 : affFlag x j ≠ 0
  · exact Or.inr (fun h2 => ha ⟨h1, h2⟩)
  · exact Or.inl (by simpa using h1)

lemma mediumCond_intro (maxM : ℕ) (x : Mat) (lo i j : ℕ)
    (hm : machineid maxM x (lo + j) = machineid maxM x (lo + i))
    (hne1 : machineid maxM x (lo + i) ≠ -1)
    (ha : ¬(affFlag x (lo + j) ≠ 0 ∧ affFlag x (lo + i) ≠ 0))
    (hij : i ≠ j) : mediumCond maxM x lo i j = true := by
  unfold mediumCond machineidM2
  rw [if_neg hne1]
  simp only [Bool.and_eq_true, decide_eq_true_eq, Bool.not_eq_eq_eq_not,
    Bool.not_true, Bool.and_eq_false_iff, decide_eq_false_iff_not]
  refine ⟨⟨hm, ?_⟩, hij⟩
  by_cases h1 : affFlag x (lo + j) ≠ 0
  · exact Or.inr (fun h2 => ha ⟨h1, h2⟩)
  · exact Or.inl (by simpa using h1)

lemma aff_not_both (x : Mat) (i j : ℕ)
    (hi : affFlag x i = 0 ∨ affFlag x i = 1)
    (hj : affFlag x j = 0 ∨ affFlag x j = 1) :
    (¬(affFlag x i = 1 ∧ affFlag x j = 1)) ↔
      ¬(affFlag x j ≠ 0 ∧ affFlag x i ≠ 0) := by
  constructor
  · rintro h ⟨h1, h2⟩
    rcases hi with hi | hi
    · exact h2 hi
    · rcases hj with hj | hj
      · exact h1 hj
      · exact h ⟨hi, hj⟩
  · rintro h ⟨h1, h2⟩
    exact h ⟨by rw [h2]; norm_num, by rw [h1]; norm_num⟩

lemma highmem_iff_spec (maxM : ℕ) (x : Mat) (batch ptr : List ℕ) (nB : ℕ)
    (hwf : BatchWF maxM x batch ptr nB) (t : ℕ × ℕ × ℤ) :
    t ∈ highmemConflicts maxM x batch ↔ CliqueSpec maxM x ptr nB t := by
  rw [highmem_mem]
  constructor
  · rintro ⟨i, hi, j, hj, hc, ht⟩
    obtain ⟨hge0, hm, hb, ha, hij⟩ := highmemCond_spec hc
    obtain ⟨gi, hgi, hgilo, hgihi⟩ := ptr_partition ptr nB hwf.ptr_zero
      hwf.ptr_mono i (by rw [hwf.ptr_last]; exact hi)
    obtain ⟨gj, hgj, hgjlo, hgjhi⟩ := ptr_partition ptr nB hwf.ptr_zero
      hwf.ptr_mono j (by rw [hwf.ptr_last]; exact hj)
    have hbi := hwf.batch_eq gi hgi i hgilo hgihi
    have hbj := hwf.batch_eq gj hgj j hgjlo hgjhi
    have hgeq : gj = gi := by rw [← hbi, ← hbj, hb]
    subst hgeq
    refine ⟨gj, hgj, i, j, hgilo, hgihi, hgjlo, hgjhi, hij, by omega, hm, ?_, ht⟩
    exact (aff_not_both x i j (hwf.aff01 i hi) (hwf.aff01 j hj)).mpr ha
  · rintro ⟨g, hg, i, j, hilo, hihi, hjlo, hjhi, hij, hne1, hm, ha, ht⟩
    have hiub : i < x.length := by
      rw [← hwf.ptr_last]
      exact lt_of_lt_of_le hihi
        (ptr_mono_le ptr nB hwf.ptr_mono nB (le_refl nB) (g + 1) (by omega))
    have hjub : j < x.length := by
      rw [← hwf.ptr_last]
      exact lt_of_lt_of_le hjhi
        (ptr_mono_le ptr nB hwf.ptr_mono nB (le_refl nB) (g + 1) (by omega))
    refine ⟨i, hiub, j, hjub, ?_, ht⟩
    exact highmemCond_intro maxM x batch i j hm hne1
      (by rw [hwf.batch_eq g hg i hilo hihi, hwf.batch_eq g hg j hjlo hjhi])
      ((aff_not_both x i j (hwf.aff01 i hiub) (hwf.aff01 j hjub)).mp ha) hij

lemma medium_iff_spec (maxM : ℕ) (x : Mat) (batch ptr : List ℕ) (nB : ℕ)
    (hwf : BatchWF maxM x batch ptr nB) (t : ℕ × ℕ × ℤ) :
    t ∈ mediummemConflicts maxM x ptr nB ↔ CliqueSpec maxM x ptr nB t := by
  rw [medium_mem]
  constructor
  · rintro ⟨bi, hbi, i, hi, j, hj, hc, ht⟩
    obtain ⟨hge0, hm, ha, hij⟩ := mediumCond_spec hc
    have hchain : ptr.getD (bi + 1) 0 ≤ x.length := by
      rw [← hwf.ptr_last]
      exact ptr_mono_le ptr nB hwf.ptr_mono nB (le_refl nB) (bi + 1) (by omega)
    have hiub : ptr.getD bi 0 + i < x.length := by omega
    have hjub : ptr.getD bi 0 + j < x.length := by omega
    refine ⟨bi, hbi, ptr.getD bi 0 + i, ptr.getD bi 0 + j,
      by omega, by omega, by omega, by omega, by omega, by omega, hm, ?_, ht⟩
    exact (aff_not_both x (ptr.getD bi 0 + i) (ptr.getD bi 0 + j)
      (hwf.aff01 _ hiub) (hwf.aff01 _ hjub)).mpr ha
  · rintro ⟨g, hg, i, j, hilo, hihi, hjlo, hjhi, hij, hne1, hm, ha, ht⟩
    have hchain : ptr.getD (g + 1) 0 ≤ x.length := by
      rw [← hwf.ptr_last]
      exact ptr_mono_le ptr nB hwf.ptr_mono nB (le_refl nB) (g + 1) (by omega)
    have e1 : ptr.getD g 0 + (i - ptr.getD g 0) = i := by omega
    have e2 : ptr.getD g 0 + (j - ptr.getD g 0) = j := by omega
    refine ⟨g, hg, i - ptr.getD g 0, by omega, j - ptr.getD g 0, by omega,
      ?_, ?_⟩
    · apply mediumCond_intro
      · rw [e1, e2]; exact hm
      · rw [e1]; exact hne1
      · rw [e1, e2]
        exact (aff_not_both x i j (hwf.aff01 i (by omega))
          (hwf.aff01 j (by omega))).mp ha
      · omega
    · rw [e1, e2]; exact ht

lemma cond_bool_lowmem (s1 s2 : List ℚ) (a1 a2 : ℚ) :
    ((s1 = s2 : Bool) && !((a1 = 1 : Bool) && (a2 = 1 : Bool))) = true ↔
      (s1 = s2 ∧ ¬(a1 = 1 ∧ a2 = 1)) := by
  simp only [Bool.and_eq_true, decide_eq_true_eq, Bool.not_eq_eq_eq_not,
    Bool.not_true, Bool.and_eq_false_iff, decide_eq_false_iff_not]
  constructor
  · rintro ⟨hs, h⟩
    refine ⟨hs, ?_⟩
    rintro ⟨h1, h2⟩
    rcases h with h | h
    · exact h h1
    · exact h h2
  · rintro ⟨hs, h⟩
    refine ⟨hs, ?_⟩
    by_cases h1 : a1 = 1
    · exact Or.inr (fun h2 => h ⟨h1, h2⟩)
    · exact Or.inl h1

lemma lowmem_intro (maxM : ℕ) (x : Mat) (ptr : List ℕ) (nB : ℕ) (bi : ℕ)
    (hbi : bi < nB) (n1 n2 : ℕ)
    (h1lo : ptr.getD bi 0 ≤ n1) (h12 : n1 < n2)
    (h2hi : n2 < ptr.getD (bi + 1) 0)
    (hz1 : allZero (machineSlice maxM (rowOf x n1)) = false)
    (hz2 : allZero (machineSlice maxM (rowOf x n2)) = false)
    (heq : machineSlice maxM (rowOf x n1) = machineSlice maxM (rowOf x n2))
    (haff : ¬(affFlag x n1 = 1 ∧ affFlag x n2 = 1)) :
    (n1, n2, (argmaxFirst (machineSlice maxM (rowOf x n1)) : ℤ) + 3) ∈
        lowmemConflicts maxM x ptr nB ∧
      (n2, n1, (argmaxFirst (machineSlice maxM (rowOf x n1)) : ℤ) + 3) ∈
        lowmemConflicts maxM x ptr nB := by
  have e1 : ptr.getD bi 0 + (n1 - ptr.getD bi 0) = n1 := by omega
  have e2 : n1 + 1 + (n2 - (n1 + 1)) = n2 := by omega
  constructor
  · rw [lowmem_mem]
    refine ⟨bi, hbi, n1 - ptr.getD bi 0, by omega, ?_, n2 - (n1 + 1),
      by omega, ?_, ?_, ?_⟩
    · simp only [e1, e2]
      rw [hz1]; simp
    · simp only [e1, e2]
      rw [hz2]; simp
    · simp only [e1, e2]
      rw [cond_bool_lowmem]
      exact ⟨heq, haff⟩
    · simp only [e1, e2]
      exact Or.inl trivial
  · rw [lowmem_mem]
    refine ⟨bi, hbi, n1 - ptr.getD bi 0, by omega, ?_, n2 - (n1 + 1),
      by omega, ?_, ?_, ?_⟩
    · simp only [e1, e2]
      rw [hz1]; simp
    · simp only [e1, e2]
      rw [hz2]; simp
    · simp only [e1, e2]
      rw [cond_bool_lowmem]
      exact ⟨heq, haff⟩
    · simp only [e1, e2]
      exact Or.inr trivial

/-- The assigned-row analysis: a well-formed row with `machineid ≠ -1` is
one-hot at `machineid.toNat`, and `machineid`, `argmaxFirst` and `allZero`
are determined by it. -/
lemma assigned_row_onehot (maxM : ℕ) (x : Mat) (i : ℕ)
    (hr : OneHotOrZeroRow maxM (rowOf x i))
    (hne : machineid maxM x i ≠ -1) :
    ∃ k, k < maxM ∧ machineid maxM x i = (k : ℤ) ∧
      argmaxFirst (machineSlice maxM (rowOf x i)) = k ∧
      allZero (machineSlice maxM (rowOf x i)) = false ∧
      (machineSlice maxM (rowOf x i)).length = maxM ∧
      (∀ j, j < maxM →
        (machineSlice maxM (rowOf x i)).getD j 0 = if j = k then 1 else 0) := by
  obtain ⟨hlen, hcases⟩ := hr
  rcases hcases with hz | ⟨k, hk, hoh⟩
  · exact absurd (machineidOf_allzero maxM (rowOf x i) hz) hne
  · obtain ⟨hid, harg, hnz⟩ := machineidOf_onehot maxM (rowOf x i) k hlen hk hoh
    exact ⟨k, hk, hid, harg, hnz, hlen, hoh⟩

lemma notzero_row_onehot (maxM : ℕ) (x : Mat) (i : ℕ)
    (hr : OneHotOrZeroRow maxM (rowOf x i))
    (hz : allZero (machineSlice maxM (rowOf x i)) = false) :
    ∃ k, k < maxM ∧ machineid maxM x i = (k : ℤ) ∧
      argmaxFirst (machineSlice maxM (rowOf x i)) = k ∧
      (machineSlice maxM (rowOf x i)).length = maxM ∧
      (∀ j, j < maxM →
        (machineSlice maxM (rowOf x i)).getD j 0 = if j = k then 1 else 0) := by
  obtain ⟨hlen, hcases⟩ := hr
  rcases hcases with hall | ⟨k, hk, hoh⟩
  · rw [(allZero_iff _).mpr hall] at hz
    simp at hz
  · obtain ⟨hid, harg, _⟩ := machineidOf_onehot maxM (rowOf x i) k hlen hk hoh
    exact ⟨k, hk, hid, harg, hlen, hoh⟩

lemma lowmem_iff_spec (maxM : ℕ) (x : Mat) (batch ptr : List ℕ) (nB : ℕ)
    (hwf : BatchWF maxM x batch ptr nB) (t : ℕ × ℕ × ℤ) :
    t ∈ lowmemConflicts maxM x ptr nB ↔ CliqueSpec maxM x ptr nB t := by
  constructor
  · intro ht
    rw [lowmem_mem] at ht
    obtain ⟨bi, hbi, d1, hd1, hz1, d2, hd2, hz2, hcond, hmem⟩ := ht
    have hchain : ptr.getD (bi + 1) 0 ≤ x.length := by
      rw [← hwf.ptr_last]
      exact ptr_mono_le ptr nB hwf.ptr_mono nB (le_refl nB) (bi + 1) (by omega)
    have h1x : ptr.getD bi 0 + d1 < x.length := by omega
    have h2x : ptr.getD bi 0 + d1 + 1 + d2 < x.length := by omega
    obtain ⟨hsliceeq, haff⟩ := (cond_bool_lowmem _ _ _ _).mp hcond
    obtain ⟨k1, hk1, hid1, harg1, hlen1, hoh1⟩ :=
      notzero_row_onehot maxM x _ (hwf.rows _ h1x) (by simpa using hz1)
    obtain ⟨k2, hk2, hid2, harg2, hlen2, hoh2⟩ :=
      notzero_row_onehot maxM x _ (hwf.rows _ h2x) (by simpa using hz2)
    have hkeq : k1 = k2 :=
      (onehot_slice_eq_iff maxM _ _ k1 k2 hlen1 hlen2 hk1 hk2 hoh1 hoh2).mp
        hsliceeq
    rcases hmem with ht | ht
    · refine ⟨bi, hbi, ptr.getD bi 0 + d1, ptr.getD bi 0 + d1 + 1 + d2,
        by omega, by omega, by omega, by omega, by omega,
        by rw [hid1]; exact fun h => by simp at h, ?_, haff, ?_⟩
      · rw [hid1, hid2, hkeq]
      · rw [ht, hid1, harg1]
    · refine ⟨bi, hbi, ptr.getD bi 0 + d1 + 1 + d2, ptr.getD bi 0 + d1,
        by omega, by omega, by omega, by omega, by omega,
        by rw [hid2]; exact fun h => by simp at h, ?_, ?_, ?_⟩
      · rw [hid1, hid2, hkeq]
      · exact fun h => haff ⟨h.2, h.1⟩
      · rw [ht, hid2, harg1, hkeq]
  · intro hs
    obtain ⟨g, hg, i, j, hilo, hihi, hjlo, hjhi, hij, hne1, hm, ha, ht⟩ := hs
    have hchain : ptr.getD (g + 1) 0 ≤ x.length := by
      rw [← hwf.ptr_last]
      exact ptr_mono_le ptr nB hwf.ptr_mono nB (le_refl nB) (g + 1) (by omega)
    have hix : i < x.length := by omega
    have hjx : j < x.length := by omega
    obtain ⟨k, hk, hidI, hargI, hzi, hlenI, hohI⟩ :=
      assigned_row_onehot maxM x i (hwf.rows i hix) hne1
    have hnej : machineid maxM x j ≠ -1 := by
      rw [hm, hidI]
      exact fun h => by simp at h
    obtain ⟨k2, hk2, hidJ, hargJ, hzj, hlenJ, hohJ⟩ :=
      assigned_row_onehot maxM x j (hwf.rows j hjx) hnej
    have hkk : k2 = k := by
      have := hm
      rw [hidI, hidJ] at this
      exact_mod_cast this
    subst hkk
    have hslice : machineSlice maxM (rowOf x i) = machineSlice maxM (rowOf x j) :=
      (onehot_slice_eq_iff maxM _ _ k2 k2 hlenI hlenJ hk hk2 hohI hohJ).mpr rfl
    rcases lt_or_gt_of_ne hij with hlt | hgt
    · have hmemb := (lowmem_intro maxM x ptr nB g hg i j hilo hlt hjhi
        hzi hzj hslice (fun h => ha h)).1
      rw [ht, hidI, ← hargI]
      exact hmemb
    · have hmemb := (lowmem_intro maxM x ptr nB g hg j i hjlo hgt hihi
        hzj hzi hslice.symm (fun h => ha ⟨h.2, h.1⟩)).2
      rw [ht, hidI, ← hargJ]
      exact hmemb

/-- C2: under the data-model invariants (one-hot or all-zero machine
blocks, 0/1 affectation flags, coherent batch ids and graph pointers), the
three clique-conflict strategies — dense all-graphs-at-once, per-graph
dense, and exhaustive nested pairwise — produce the same conflict edge set,
compared as unordered sets of (source, target, edge-type) triples. -/
theorem c2_clique_strategies_equivalent (maxM : ℕ) (x : Mat)
    (batch ptr : List ℕ) (nB : ℕ) (hwf : BatchWF maxM x batch ptr nB) :
    (highmemConflicts maxM x batch).toFinset =
      (mediummemConflicts maxM x ptr nB).toFinset ∧
    (mediummemConflicts maxM x ptr nB).toFinset =
      (lowmemConflicts maxM x ptr nB).toFinset := by
  constructor
  · apply Finset.ext
    intro t
    rw [List.mem_toFinset, List.mem_toFinset,
      highmem_iff_spec maxM x batch ptr nB hwf t,
      medium_iff_spec maxM x batch ptr nB hwf t]
  · apply Finset.ext
    intro t
    rw [List.mem_toFinset, List.mem_toFinset,
      medium_iff_spec maxM x batch ptr nB hwf t,
      lowmem_iff_spec maxM x batch ptr nB hwf t]

instance (maxM : ℕ) (row : List ℚ) : Decidable (OneHotOrZeroRow maxM row) := by
  unfold OneHotOrZeroRow
  exact inferInstance

/-- Concrete two-graph batch for the C2 witness: graph A has three tasks on
machine 0 (one already affected), graph B has two tasks on machines 0, 1. -/
def xW2 : Mat :=
  [[0, 0, 0, 0, 0, 0, 1, 0], [1, 0, 0, 0, 0, 0, 1, 0],
   [0, 0, 0, 0, 0, 0, 1, 0], [0, 0, 0, 0, 0, 0, 1, 0],
   [0, 0, 0, 0, 0, 0, 0, 1]]

/-- Batch ids for `xW2`. -/
def batchW2 : List ℕ := [0, 0, 0, 1, 1]

/-- Graph pointers for `xW2`. -/
def ptrW2 : List ℕ := [0, 3, 5]

theorem c2_clique_strategies_equivalent_witness :
    BatchWF 2 xW2 batchW2 ptrW2 2 ∧
    ((highmemConflicts 2 xW2 batchW2).toFinset =
        (mediummemConflicts 2 xW2 ptrW2 2).toFinset ∧
      (mediummemConflicts 2 xW2 ptrW2 2).toFinset =
        (lowmemConflicts 2 xW2 ptrW2 2).toFinset) := by
  have hwf : BatchWF 2 xW2 batchW2 ptrW2 2 := by
    refine ⟨by decide, by decide, by decide, ?_, by decide, by decide⟩
    intro g hg k h1 h2
    have h5 : k < 5 := by
      have hgle : ptrW2.getD (g + 1) 0 ≤ 5 := by interval_cases g <;> decide
      omega
    interval_cases g <;> interval_cases k <;> revert h1 h2 <;> decide
  exact ⟨hwf, c2_clique_strategies_equivalent 2 xW2 batchW2 ptrW2 2 hwf⟩

/-- The shape contracts of the external collaborators: the embedder MLP and
the per-layer convolutions and auxiliary MLPs map any input to one output
row per input row of the configured hidden width, and the normalisation
layers preserve both the row count and each row's width. -/
structure CollabOK (hiddenW : ℕ) (c : Collab) : Prop where
  emb_len : ∀ m, (c.embedder m).length = m.length
  emb_w : ∀ m, ∀ r ∈ c.embedder m, r.length = hiddenW
  conv_len : ∀ l m e, (c.conv l m e).length = m.length
  conv_w : ∀ l m e, ∀ r ∈ c.conv l m e, r.length = hiddenW
  mlp_len : ∀ l m, (c.mlp l m).length = m.length
  mlp_w : ∀ l m, ∀ r ∈ c.mlp l m, r.length = hiddenW
  norm0_len : ∀ m, (c.norm0 m).length = m.length
  norm0_w : ∀ w m, (∀ r ∈ m, r.length = w) → ∀ r ∈ c.norm0 m, r.length = w
  norm1_len : ∀ m, (c.norm1 m).length = m.length
  norm1_w : ∀ w m, (∀ r ∈ m, r.length = w) → ∀ r ∈ c.norm1 m, r.length = w
  norms_len : ∀ l m, (c.norms l m).length = m.length
  norms_w : ∀ l w m, (∀ r ∈ m, r.length = w) → ∀ r ∈ c.norms l m, r.length = w
  normsbis_len : ∀ l m, (c.normsbis l m).length = m.length
  normsbis_w : ∀ l w m, (∀ r ∈ m, r.length = w) →
    ∀ r ∈ c.normsbis l m, r.length = w

lemma mem_zipWith {α β γ : Type} {f : α → β → γ} :
    ∀ {a : List α} {b : List β} {z : γ}, z ∈ List.zipWith f a b →
      ∃ u ∈ a, ∃ v ∈ b, z = f u v := by
  intro a
  induction a with
  | nil => intro b z hz; simp at hz
  | cons u a ih =>
      intro b z hz
      cases b with
      | nil => simp at hz
      | cons v b =>
          rw [List.zipWith_cons_cons] at hz
          rcases List.mem_cons.mp hz with h | h
          · exact ⟨u, by simp, v, by simp, h⟩
          · obtain ⟨u2, hu2, v2, hv2, hz2⟩ := ih h
            exact ⟨u2, List.mem_cons_of_mem u hu2, v2,
              List.mem_cons_of_mem v hv2, hz2⟩

lemma rowOf_mem {m : Mat} {i : ℕ} (hi : i < m.length) : rowOf m i ∈ m := by
  unfold rowOf
  rw [List.getD_eq_getElem _ _ hi]
  exact List.getElem_mem hi

lemma headD_rect {m : Mat} {w : ℕ} (hne : m ≠ [])
    (hrect : ∀ r ∈ m, r.length = w) : (m.headD []).length = w := by
  cases m with
  | nil => exact absurd rfl hne
  | cons r t => exact hrect r (by simp)

lemma matAdd_shape {a b : Mat} {N w : ℕ} (hal : a.length = N)
    (hbl : b.length = N) (haw : ∀ r ∈ a, r.length = w)
    (hbw : ∀ r ∈ b, r.length = w) :
    (matAdd a b).length = N ∧ ∀ r ∈ matAdd a b, r.length = w := by
  constructor
  · unfold matAdd
    rw [List.length_zipWith, hal, hbl]
    omega
  · intro r hr
    obtain ⟨u, hu, v, hv, hres⟩ := mem_zipWith hr
    rw [hres]
    unfold vecAdd
    rw [List.length_zipWith, haw u hu, hbw v hv]
    omega

lemma mapAct_shape (act : ℚ → ℚ) (m : Mat) {N w : ℕ} (hl : m.length = N)
    (hw : ∀ r ∈ m, r.length = w) :
    (mapAct act m).length = N ∧ ∀ r ∈ mapAct act m, r.length = w := by
  constructor
  · unfold mapAct
    rw [List.length_map]
    exact hl
  · intro r hr
    unfold mapAct at hr
    rw [List.mem_map] at hr
    obtain ⟨r0, hr0, hres⟩ := hr
    rw [← hres, List.length_map]
    exact hw r0 hr0

/-- Invariant of the message-passing loop state: current features and the
recorded list all have one row per (augmented) node; the first record keeps
the input width, all later records the hidden width. -/
def MPInv (N iW hW : ℕ) (s : Mat × List Mat) : Prop :=
  s.1.length = N ∧ (∀ r ∈ s.1, r.length = hW) ∧
  s.2 ≠ [] ∧ (∀ mt ∈ s.2, mt.length = N) ∧
  (∀ r ∈ s.2.headD [], r.length = iW) ∧
  (∀ mt ∈ s.2.tail, ∀ r ∈ mt, r.length = hW) ∧
  (s.2.getLastD []).length = N ∧ (∀ r ∈ s.2.getLastD [], r.length = hW)

lemma layerStep_inv (cfg : FEConfig) (c : Collab) (hW : ℕ)
    (hc : CollabOK hW c) (edges : List (ℕ × ℕ × ℤ)) (l : ℕ) {N iW : ℕ}
    (s : Mat × List Mat) (hs : MPInv N iW hW s) :
    MPInv N iW hW (layerStep cfg c edges l s) ∧
      (layerStep cfg c edges l s).2.length = s.2.length + 1 := by
  obtain ⟨h1, h2, hne, hall, hhead, htail, hlastN, hlastW⟩ := hs
  set f1 := c.conv l s.1 edges with hf1
  have hf1s : f1.length = N ∧ ∀ r ∈ f1, r.length = hW :=
    ⟨by rw [hf1, hc.conv_len, h1], fun r hr => hc.conv_w l s.1 edges r hr⟩
  set f2 := if cfg.graph_has_relu || cfg.gconv_type = "gatv2" then
      mapAct c.act f1 else f1 with hf2
  have hf2s : f2.length = N ∧ ∀ r ∈ f2, r.length = hW := by
    rw [hf2]
    split_ifs
    · exact mapAct_shape c.act f1 hf1s.1 hf1s.2
    · exact hf1s
  set f3 := if cfg.gconv_type = "gatv2" then c.mlp l f2 else f2 with hf3
  have hf3s : f3.length = N ∧ ∀ r ∈ f3, r.length = hW := by
    rw [hf3]
    split_ifs
    · exact ⟨by rw [hc.mlp_len, hf2s.1], fun r hr => hc.mlp_w l f2 r hr⟩
    · exact hf2s
  set f4 := if cfg.normalize then c.norms l f3 else f3 with hf4
  have hf4s : f4.length = N ∧ ∀ r ∈ f4, r.length = hW := by
    rw [hf4]
    split_ifs
    · exact ⟨by rw [hc.norms_len, hf3s.1], hc.norms_w l hW f3 hf3s.2⟩
    · exact hf3s
  have happend : ∀ (e : Mat), e.length = N → (∀ r ∈ e, r.length = hW) →
      MPInv N iW hW (e, s.2 ++ [e]) ∧
        ∀ (m2 : Mat), m2.length = N → (∀ r ∈ m2, r.length = hW) →
          MPInv N iW hW (m2, s.2 ++ [e]) := by
    intro e heN heW
    have hlist : s.2 ++ [e] ≠ [] ∧ (∀ mt ∈ s.2 ++ [e], mt.length = N) ∧
        (∀ r ∈ (s.2 ++ [e]).headD [], r.length = iW) ∧
        (∀ mt ∈ (s.2 ++ [e]).tail, ∀ r ∈ mt, r.length = hW) ∧
        ((s.2 ++ [e]).getLastD []).length = N ∧
        (∀ r ∈ (s.2 ++ [e]).getLastD [], r.length = hW) := by
      refine ⟨by simp, ?_, ?_, ?_, ?_, ?_⟩
      · intro mt hmt
        rcases List.mem_append.mp hmt with h | h
        · exact hall mt h
        · rw [List.mem_singleton.mp h]; exact heN
      · cases hcase : s.2 with
        | nil => exact absurd hcase hne
        | cons a t =>
            rw [hcase] at hhead
            simpa using hhead
      · intro mt hmt
        cases hcase : s.2 with
        | nil => exact absurd hcase hne
        | cons a t =>
            rw [hcase] at htail hmt
            rw [List.cons_append, List.tail_cons] at hmt
            rcases List.mem_append.mp hmt with h | h
            · exact htail mt h
            · rw [List.mem_singleton.mp h]; exact heW
      · rw [List.getLastD_concat]; exact heN
      · rw [List.getLastD_concat]; exact heW
    exact ⟨⟨heN, heW, hlist.1, hlist.2.1, hlist.2.2.1, hlist.2.2.2.1,
        hlist.2.2.2.2.1, hlist.2.2.2.2.2⟩,
      fun m2 hm2N hm2W => ⟨hm2N, hm2W, hlist.1, hlist.2.1, hlist.2.2.1,
        hlist.2.2.2.1, hlist.2.2.2.2.1, hlist.2.2.2.2.2⟩⟩
  show MPInv N iW hW (layerStep cfg c edges l s) ∧ _
  unfold layerStep
  dsimp only
  rw [← hf1, ← hf2, ← hf3, ← hf4]
  split_ifs with hres hnorm
  · have hf5 := matAdd_shape hf4s.1 hlastN hf4s.2 hlastW
    refine ⟨(happend _ hf5.1 hf5.2).2 _ ?_ ?_, by simp⟩
    · rw [hc.normsbis_len, hf5.1]
    · exact hc.normsbis_w l hW _ hf5.2
  · have hf5 := matAdd_shape hf4s.1 hlastN hf4s.2 hlastW
    exact ⟨(happend _ hf5.1 hf5.2).1, by simp⟩
  · exact ⟨(happend _ hf4s.1 hf4s.2).1, by simp⟩

lemma runLayers_inv (cfg : FEConfig) (c : Collab) (hW : ℕ)
    (hc : CollabOK hW c) (edges : List (ℕ × ℕ × ℤ)) {N iW : ℕ} :
    ∀ (k l : ℕ) (s : Mat × List Mat), MPInv N iW hW s →
      MPInv N iW hW (runLayers cfg c edges k l s) ∧
        (runLayers cfg c edges k l s).2.length = s.2.length + k := by
  intro k
  induction k with
  | zero => intro l s hs; exact ⟨hs, rfl⟩
  | succ k ih =>
      intro l s hs
      have hstep := layerStep_inv cfg c hW hc edges l s hs
      have hrec := ih (l + 1) (layerStep cfg c edges l s) hstep.1
      refine ⟨hrec.1, ?_⟩
      have : runLayers cfg c edges (k + 1) l s =
          runLayers cfg c edges k (l + 1) (layerStep cfg c edges l s) := rfl
      rw [this, hrec.2, hstep.2]
      omega

lemma initMP_inv (cfg : FEConfig) (c : Collab) (hW : ℕ) (hc : CollabOK hW c)
    {N iW : ℕ} (F : Mat) (hFl : F.length = N) (hFw : ∀ r ∈ F, r.length = iW) :
    MPInv N iW hW (initMP cfg c F) ∧ (initMP cfg c F).2.length = 2 := by
  unfold initMP
  dsimp only
  set f0 := if cfg.normalize then c.norm0 F else F with hf0
  have hf0s : f0.length = N ∧ ∀ r ∈ f0, r.length = iW := by
    rw [hf0]
    split_ifs
    · exact ⟨by rw [hc.norm0_len, hFl], hc.norm0_w iW F hFw⟩
    · exact ⟨hFl, hFw⟩
  set f1 := c.embedder f0 with hf1
  have hf1s : f1.length = N ∧ ∀ r ∈ f1, r.length = hW := by
    rw [hf1]
    exact ⟨by rw [hc.emb_len, hf0s.1], hc.emb_w f0⟩
  set f2 := if cfg.normalize then c.norm1 f1 else f1 with hf2
  have hf2s : f2.length = N ∧ ∀ r ∈ f2, r.length = hW := by
    rw [hf2]
    split_ifs
    · exact ⟨by rw [hc.norm1_len, hf1s.1], hc.norm1_w hW f1 hf1s.2⟩
    · exact hf1s
  refine ⟨⟨hf2s.1, hf2s.2, by simp, ?_, ?_, ?_, ?_, ?_⟩, rfl⟩
  · intro mt hmt
    rcases List.mem_cons.mp hmt with h | h
    · rw [h]; exact hf0s.1
    · rw [List.mem_singleton.mp h]; exact hf2s.1
  · simpa using hf0s.2
  · intro mt hmt
    dsimp only at hmt
    rw [List.tail_cons] at hmt
    rw [List.mem_singleton.mp hmt]
    exact hf2s.2
  · simpa using hf2s.1
  · simpa using hf2s.2

lemma zeroMachineCols_length (maxM : ℕ) (row : List ℚ) :
    (zeroMachineCols maxM row).length = row.length := by
  unfold zeroMachineCols
  rw [List.length_append, List.length_append, List.length_take,
    List.length_replicate, List.length_drop]
  omega

lemma augment_shape (cfg : FEConfig) (gs : GraphState) (iW : ℕ)
    (hx : ∀ r ∈ gs.x, r.length = iW) (hne : gs.x ≠ []) :
    (∀ r ∈ (augment cfg gs).features, r.length = iW) ∧
    gs.x.length ≤ (augment cfg gs).features.length ∧
    (cfg.graph_pooling = "learn" →
      gs.x.length + gs.numGraphs ≤ (augment cfg gs).features.length) := by
  have hpoolf : ∀ st : AugState, st.features ≠ [] →
      (∀ r ∈ st.features, r.length = iW) →
      (∀ r ∈ (applyPooling cfg gs st).features, r.length = iW) ∧
        st.features.length ≤ (applyPooling cfg gs st).features.length ∧
        (applyPooling cfg gs st).features ≠ [] ∧
        (cfg.graph_pooling = "learn" →
          (applyPooling cfg gs st).features.length =
            st.features.length + gs.numGraphs) := by
    intro st hstne hstw
    unfold applyPooling
    split_ifs with hp hrev
    · dsimp only
      refine ⟨?_, by simp, by simp [hstne], fun _ => by simp⟩
      intro r hr
      rcases List.mem_append.mp hr with h | h
      · exact hstw r h
      · rw [List.eq_of_mem_replicate h, List.length_replicate]
        exact headD_rect hstne hstw
    · dsimp only
      refine ⟨?_, by simp, by simp [hstne], fun _ => by simp⟩
      intro r hr
      rcases List.mem_append.mp hr with h | h
      · exact hstw r h
      · rw [List.eq_of_mem_replicate h, List.length_replicate]
        exact headD_rect hstne hstw
    · exact ⟨hstw, le_refl _, hstne, fun h => absurd h hp⟩
  have hconff : ∀ st : AugState, st.features ≠ [] →
      (∀ r ∈ st.features, r.length = iW) →
      (∀ r ∈ (applyConflicts cfg gs st).features, r.length = iW) ∧
        st.features.length ≤ (applyConflicts cfg gs st).features.length := by
    intro st hstne hstw
    unfold applyConflicts
    split_ifs
    · exact ⟨hstw, le_refl _⟩
    · exact ⟨hstw, le_refl _⟩
    · exact ⟨hstw, le_refl _⟩
    · dsimp only
      constructor
      · intro r hr
        rw [List.mem_map] at hr
        obtain ⟨r0, hr0, hres⟩ := hr
        rw [← hres, zeroMachineCols_length]
        rcases List.mem_append.mp hr0 with h | h
        · exact hstw r0 h
        · rw [List.eq_of_mem_replicate h, List.length_replicate]
          exact headD_rect hstne hstw
      · rw [List.length_map, List.length_append]
        omega
    · exact ⟨hstw, le_refl _⟩
  have h0ne : (initAug gs).features ≠ [] := hne
  have h0w : ∀ r ∈ (initAug gs).features, r.length = iW := hx
  obtain ⟨hpw, hple, hpne, hplen⟩ := hpoolf (initAug gs) h0ne h0w
  obtain ⟨hcw, hcle⟩ := hconff (applyPooling cfg gs (initAug gs)) hpne hpw
  unfold augment
  rw [applyReverse_features]
  have h0len : (initAug gs).features.length = gs.x.length := rfl
  refine ⟨hcw, by omega, fun hp => ?_⟩
  have := hplen hp
  omega

lemma getD_mem {α : Type} {l : List α} {i : ℕ} (d : α) (hi : i < l.length) :
    l.getD i d ∈ l := by
  rw [List.getD_eq_getElem _ _ hi]
  exact List.getElem_mem hi

lemma sum_map_rowlen (N i hW : ℕ) :
    ∀ (rest : List Mat), (∀ mt ∈ rest, mt.length = N) →
      (∀ mt ∈ rest, ∀ r ∈ mt, r.length = hW) → i < N →
      ((rest.map (fun m => rowOf m i)).map List.length).sum =
        rest.length * hW := by
  intro rest
  induction rest with
  | nil => intro _ _ _; simp
  | cons m rest ih =>
      intro hN hw hi
      rw [List.map_cons, List.map_cons, List.sum_cons,
        ih (fun mt hmt => hN mt (List.mem_cons_of_mem m hmt))
          (fun mt hmt => hw mt (List.mem_cons_of_mem m hmt)) hi]
      have hm : (rowOf m i).length = hW :=
        hw m (by simp) _ (rowOf_mem (by rw [hN m (by simp)]; exact hi))
      rw [hm, List.length_cons, Nat.succ_mul]
      omega

lemma hcat_shape (ms : List Mat) (N iW hW L : ℕ)
    (hlen : ms.length = L + 2)
    (hN : ∀ mt ∈ ms, mt.length = N)
    (hhead : ∀ r ∈ ms.headD [], r.length = iW)
    (htail : ∀ mt ∈ ms.tail, ∀ r ∈ mt, r.length = hW) :
    (hcat ms).length = N ∧
      ∀ row ∈ hcat ms, row.length = iW + hW * (L + 1) := by
  cases ms with
  | nil => simp at hlen
  | cons m0 rest =>
      have hm0N : m0.length = N := hN m0 (by simp)
      have hrestlen : rest.length = L + 1 := by
        rw [List.length_cons] at hlen
        omega
      constructor
      · unfold hcat
        rw [List.length_map, List.length_range]
        simpa using hm0N
      · intro row hrow
        unfold hcat at hrow
        rw [List.mem_map] at hrow
        obtain ⟨i, hi, hres⟩ := hrow
        rw [List.mem_range] at hi
        have hiN : i < N := by
          have : ((m0 :: rest).headD []).length = m0.length := by simp
          omega
        subst hres
        rw [List.length_flatten, List.map_cons, List.map_cons, List.sum_cons]
        have hrow0 : (rowOf m0 i).length = iW := by
          apply hhead
          simpa using rowOf_mem (show i < m0.length by omega)
        rw [hrow0, sum_map_rowlen N i hW rest
          (fun mt hmt => hN mt (List.mem_cons_of_mem m0 hmt))
          (fun mt hmt => htail mt (by simpa using hmt)) hiN, hrestlen]
        ring

lemma featuresList_shape (cfg : FEConfig) (c : Collab) (iW hW : ℕ)
    (hc : CollabOK hW c) (gs : GraphState)
    (hx : ∀ r ∈ gs.x, r.length = iW) (hne : gs.x ≠ []) :
    (featuresList cfg c gs).length = cfg.n_layers + 2 ∧
    (∀ mt ∈ featuresList cfg c gs,
      mt.length = (augment cfg gs).features.length) ∧
    (∀ r ∈ (featuresList cfg c gs).headD [], r.length = iW) ∧
    (∀ mt ∈ (featuresList cfg c gs).tail, ∀ r ∈ mt, r.length = hW) := by
  have haug := augment_shape cfg gs iW hx hne
  have hinit := initMP_inv cfg c hW hc (augment cfg gs).features rfl haug.1
  have hrun := runLayers_inv cfg c hW hc (augment cfg gs).edges
    cfg.n_layers 0 _ hinit.1
  obtain ⟨_, _, _, hall, hhead, htail, _, _⟩ := hrun.1
  refine ⟨?_, hall, hhead, htail⟩
  show (runLayers cfg c (augment cfg gs).edges cfg.n_layers 0
    (initMP cfg c (augment cfg gs).features)).2.length = cfg.n_layers + 2
  rw [hrun.2, hinit.2]
  omega

/-- C1: for every graph batch, every conflict mode (the stage is a no-op
for unrecognized modes, so this covers `"att"`, `"clique"` under any of the
three strategies, and `"node"`), and every accepted pooling mode, `forward`
returns a `(batch_size, n_nodes, 2 × (input_width + hidden_width ×
(n_layers + 1)))` tensor, given the collaborators' shape contracts and the
observation-to-graph consistency conditions. -/
theorem c1_forward_output_shape (cfg : FEConfig) (c : Collab)
    (gs : GraphState) (bs n iW hW : ℕ)
    (hc : CollabOK hW c)
    (hx : ∀ r ∈ gs.x, r.length = iW)
    (hcount : gs.x.length = bs * n)
    (hbs : 0 < bs) (hn : 0 < n)
    (hnb : gs.numGraphs = bs)
    (hpool : cfg.graph_pooling = "max" ∨ cfg.graph_pooling = "avg" ∨
      cfg.graph_pooling = "learn") :
    ∃ out, forward cfg c gs bs n = Except.ok out ∧
      out.length = bs ∧
      ∀ g ∈ out, g.length = n ∧
        ∀ row ∈ g, row.length = 2 * (iW + hW * (cfg.n_layers + 1)) := by
  have hne : gs.x ≠ [] := by
    intro h
    rw [h] at hcount
    simp at hcount
    rcases hcount with h | h <;> omega
  have haug := augment_shape cfg gs iW hx hne
  have hfl := featuresList_shape cfg c iW hW hc gs hx hne
  set W := iW + hW * (cfg.n_layers + 1) with hWdef
  set final := finalFeatures cfg c gs with hfinal
  have hfshape : final.length = (augment cfg gs).features.length ∧
      ∀ row ∈ final, row.length = W := by
    rw [hfinal]
    unfold finalFeatures
    exact hcat_shape (featuresList cfg c gs) (augment cfg gs).features.length
      iW hW cfg.n_layers hfl.1 hfl.2.1 hfl.2.2.1 hfl.2.2.2
  have hrealN : gs.x.length ≤ final.length := by
    rw [hfshape.1]
    exact haug.2.1
  have hrect : ∀ r ∈ final.take gs.x.length, r.length = W :=
    fun r hr => hfshape.2 r (List.take_subset _ _ hr)
  have hchunkfacts := nodeChunks_facts final gs.x.length bs n W hrect
    hcount hrealN
  have hchunklen : (nodeChunks final gs.x.length bs n).length = bs := by
    unfold nodeChunks
    rw [List.length_map, List.length_range]
  -- the readout result, by pooling mode
  have hstage : ∃ ge, graphEmbeddingStage cfg.graph_pooling final
      gs.x.length gs.numGraphs bs n = Except.ok ge ∧
      ge.length = bs ∧ ∀ r ∈ ge, r.length = W := by
    rcases hpool with hp | hp | hp
    · refine ⟨(nodeChunks final gs.x.length bs n).map colMax, ?_, ?_, ?_⟩
      · unfold graphEmbeddingStage
        rw [hp]
        simp
      · rw [List.length_map, hchunklen]
      · intro r hr
        rw [List.mem_map] at hr
        obtain ⟨ch, hch, hres⟩ := hr
        obtain ⟨hchn, hchw⟩ := hchunkfacts ch hch
        rw [← hres]
        exact colMax_length W ch hchw (by
          intro h
          rw [h] at hchn
          simp at hchn
          omega)
    · refine ⟨(nodeChunks final gs.x.length bs n).map (colMean n), ?_, ?_, ?_⟩
      · unfold graphEmbeddingStage
        rw [hp]
        simp
      · rw [List.length_map, hchunklen]
      · intro r hr
        rw [List.mem_map] at hr
        obtain ⟨ch, hch, hres⟩ := hr
        obtain ⟨hchn, hchw⟩ := hchunkfacts ch hch
        rw [← hres]
        exact colMean_length W n ch hchw (by
          intro h
          rw [h] at hchn
          simp at hchn
          omega)
    · have hlong : gs.x.length + bs ≤ final.length := by
        rw [hfshape.1, ← hnb]
        exact haug.2.2 hp
      refine ⟨(final.drop gs.x.length).take gs.numGraphs, ?_, ?_, ?_⟩
      · unfold graphEmbeddingStage
        rw [hp]
        simp
      · rw [List.length_take, List.length_drop, hnb]
        omega
      · intro r hr
        exact hfshape.2 r (List.drop_subset _ _ (List.take_subset _ _ hr))
  obtain ⟨ge, hge, hgelen, hgew⟩ := hstage
  refine ⟨(List.range bs).map (fun b =>
    ((nodeChunks final gs.x.length bs n).getD b []).map
      (fun row => row ++ rowOf ge b)), ?_, ?_, ?_⟩
  · unfold forward
    dsimp only
    rw [← hfinal, hge]
  · rw [List.length_map, List.length_range]
  · intro g hg
    rw [List.mem_map] at hg
    obtain ⟨b, hb, hres⟩ := hg
    rw [List.mem_range] at hb
    have hchb : (nodeChunks final gs.x.length bs n).getD b [] ∈
        nodeChunks final gs.x.length bs n :=
      getD_mem [] (by rw [hchunklen]; exact hb)
    obtain ⟨hchn, hchw⟩ := hchunkfacts _ hchb
    subst hres
    constructor
    · rw [List.length_map]
      exact hchn
    · intro row hrow
      rw [List.mem_map] at hrow
      obtain ⟨r0, hr0, hres⟩ := hrow
      rw [← hres, List.length_append, hchw r0 hr0,
        hgew (rowOf ge b) (rowOf_mem (by rw [hgelen]; exact hb))]
      omega

/-- Concrete configuration for the C1 witness: clique conflicts with the
default per-graph strategy, max pooling, one layer. -/
def cfgW1 : FEConfig :=
  { gconv_type := "gin", graph_pooling := "max", conflicts := "clique"
    highmem_conflict_clique := false, mediummem_conflict_clique := true
    reverse_adj := false, residual := true, normalize := false
    graph_has_relu := false, max_n_machines := 2, n_layers := 1 }

/-- Concrete collaborators for the C1 witness (hidden width 1). -/
def cW1 : Collab :=
  { embedder := fun m => m.map (fun _ => [0])
    conv := fun _ m _ => m.map (fun _ => [0])
    mlp := fun _ m => m.map (fun _ => [0])
    act := fun q => q
    norm0 := fun m => m
    norm1 := fun m => m
    norms := fun _ m => m
    normsbis := fun _ m => m }

/-- Concrete one-graph batch for the C1 witness (2 nodes of width 8). -/
def gsW1 : GraphState :=
  { x := [[0, 0, 0, 0, 0, 0, 1, 0], [0, 0, 0, 0, 0, 0, 1, 0]]
    edgeSrc := [0], edgeTgt := [1], batch := [0, 0], ptr := [0, 2]
    numGraphs := 1 }

lemma cW1_ok : CollabOK 1 cW1 := by
  refine ⟨?_, ?_, ?_, ?_, ?_, ?_, ?_, ?_, ?_, ?_, ?_, ?_, ?_, ?_⟩
  · intro m; simp [cW1]
  · intro m r hr
    simp only [cW1] at hr
    rw [List.mem_map] at hr
    obtain ⟨a, _, h⟩ := hr
    rw [← h]
    rfl
  · intro l m e; simp [cW1]
  · intro l m e r hr
    simp only [cW1] at hr
    rw [List.mem_map] at hr
    obtain ⟨a, _, h⟩ := hr
    rw [← h]
    rfl
  · intro l m; simp [cW1]
  · intro l m r hr
    simp only [cW1] at hr
    rw [List.mem_map] at hr
    obtain ⟨a, _, h⟩ := hr
    rw [← h]
    rfl
  · intro m; rfl
  · intro w m h r hr; exact h r hr
  · intro m; rfl
  · intro w m h r hr; exact h r hr
  · intro l m; rfl
  · intro l w m h r hr; exact h r hr
  · intro l m; rfl
  · intro l w m h r hr; exact h r hr

theorem c1_forward_output_shape_witness :
    (CollabOK 1 cW1 ∧ (∀ r ∈ gsW1.x, r.length = 8) ∧
      gsW1.x.length = 1 * 2 ∧ 0 < 1 ∧ 0 < 2 ∧ gsW1.numGraphs = 1 ∧
      (cfgW1.graph_pooling = "max" ∨ cfgW1.graph_pooling = "avg" ∨
        cfgW1.graph_pooling = "learn")) ∧
    ∃ out, forward cfgW1 cW1 gsW1 1 2 = Except.ok out ∧
      out.length = 1 ∧
      ∀ g ∈ out, g.length = 2 ∧
        ∀ row ∈ g, row.length = 2 * (8 + 1 * (cfgW1.n_layers + 1)) :=
  ⟨⟨cW1_ok, by decide, rfl, by decide, by decide, rfl, Or.inl rfl⟩,
    c1_forward_output_shape cfgW1 cW1 gsW1 1 2 8 1 cW1_ok (by decide) rfl
      (by decide) (by decide) rfl (Or.inl rfl)⟩

end Wheatley
